import Mathlib

/-!
Verification development for the c0br4 chess engine core.

The repository ships two debug drivers (`debug_search.cpp`, `debug_uci.cpp`)
that exercise an engine core (`Position`, `Searcher`, `UCIEngine`) whose
implementation files are not part of the source tree shipped here.  The
definitions below therefore embed that core by modelling it from the design
document: the position/move data model, pseudo-legal and legal move
generation, make/unmake with an apply-time journal, iterative-deepening
alpha-beta search with mate/stalemate terminal scoring, and the
command/session layer with its cooperative-cancellation worker.
-/

set_option linter.unusedVariables false
set_option linter.unusedTactic false
set_option linter.unnecessarySeqFocus false

namespace ChessAI

/-- Modelled from the spec: colors of the two sides. -/
inductive Color where
  | white
  | black
deriving DecidableEq, Repr

/-- Modelled from the spec: the opposing color. -/
def Color.other : Color → Color
  | .white => .black
  | .black => .white

/-- Modelled from the spec: the six piece kinds. -/
inductive PieceType where
  | pawn
  | knight
  | bishop
  | rook
  | queen
  | king
deriving DecidableEq, Repr

/-- Modelled from the spec: a colored piece. -/
structure Piece where
  color : Color
  kind : PieceType
deriving DecidableEq, Repr

/-- Modelled from the spec: a Square is an integer index over the 64 cells. -/
abbrev Square := Fin 64

/-- Build a square from a numeral (total, reduces indices mod 64). -/
def sq (n : Nat) : Square := ⟨n % 64, Nat.mod_lt n (by decide)⟩

/-- Rank (row, 0..7) of a square. -/
def rankOf (s : Square) : Nat := s.val / 8

/-- File (column, 0..7) of a square. -/
def fileOf (s : Square) : Nat := s.val % 8

/-- Square from integer rank/file coordinates; `none` when off the board. -/
def toSq? (r f : Int) : Option Square :=
  if h : 0 ≤ r ∧ r < 8 ∧ 0 ≤ f ∧ f < 8 then
    some ⟨(r * 8 + f).toNat, by omega⟩
  else
    none

/-- Modelled from the spec: board occupancy, one optional piece per square. -/
def Board := Square → Option Piece

/-- Functional update of one board square. -/
def bset (b : Board) (x : Square) (v : Option Piece) : Board :=
  fun y => if y = x then v else b y

/-- The empty board. -/
def emptyBoard : Board := fun _ => none

/-- Modelled from the spec: castling-rights bitset (white/black, king/queen side). -/
structure CastlingRights where
  wk : Bool
  wq : Bool
  bk : Bool
  bq : Bool
deriving DecidableEq, Repr

/-- Modelled from the spec: the Position value — occupancy, side to move,
castling rights, en-passant target, halfmove clock and fullmove counter.
The position-identity hash of the data model is a derived function
(`positionHash`) rather than stored state. -/
structure Position where
  board : Board
  sideToMove : Color
  castling : CastlingRights
  epTarget : Option Square
  halfmove : Nat
  fullmove : Nat

/-- Modelled from the spec: a Move is a compact value packing origin square,
destination square and a promotion/special flag into one number.
Flags: 0 quiet/capture, 1 double pawn push, 2 en passant, 3 castle kingside,
4 castle queenside, 5–8 promotion to knight/bishop/rook/queen. -/
abbrev Move := Nat

/-- Pack a move from origin, destination and flag. -/
def mkMove (f t : Square) (fl : Nat) : Move := f.val + 64 * t.val + 4096 * fl

/-- Origin square of a packed move. -/
def from_sq (m : Move) : Square := ⟨m % 64, by omega⟩

/-- Destination square of a packed move. -/
def to_sq (m : Move) : Square := ⟨m / 64 % 64, by omega⟩

/-- Flag of a packed move. -/
def flag_of (m : Move) : Nat := m / 4096

/-- Modelled from the spec: the distinguished null-move sentinel. -/
def NULL_MOVE : Move := 0

/-- Piece placed by a promotion flag. -/
def promoPiece : Nat → PieceType
  | 5 => .knight
  | 6 => .bishop
  | 7 => .rook
  | _ => .queen

/-- Home square of the king of a color. -/
def kingHome (c : Color) : Square := if c = .white then sq 4 else sq 60
/-- King destination of kingside castling. -/
def kingToK (c : Color) : Square := if c = .white then sq 6 else sq 62
/-- King destination of queenside castling. -/
def kingToQ (c : Color) : Square := if c = .white then sq 2 else sq 58
/-- Rook origin of kingside castling. -/
def rookFromK (c : Color) : Square := if c = .white then sq 7 else sq 63
/-- Rook destination of kingside castling. -/
def rookToK (c : Color) : Square := if c = .white then sq 5 else sq 61
/-- Rook origin of queenside castling. -/
def rookFromQ (c : Color) : Square := if c = .white then sq 0 else sq 56
/-- Rook destination of queenside castling. -/
def rookToQ (c : Color) : Square := if c = .white then sq 3 else sq 59
/-- Knight home square on the queenside (must be empty to castle long). -/
def knightHomeQ (c : Color) : Square := if c = .white then sq 1 else sq 57

/-- The piece layout of the standard back rank by file. -/
def backRank : Nat → PieceType
  | 0 => .rook
  | 1 => .knight
  | 2 => .bishop
  | 3 => .queen
  | 4 => .king
  | 5 => .bishop
  | 6 => .knight
  | _ => .rook

/-- Modelled from the spec: the standard start layout. -/
def startBoard : Board := fun s =>
  if rankOf s = 0 then some ⟨.white, backRank (fileOf s)⟩
  else if rankOf s = 1 then some ⟨.white, .pawn⟩
  else if rankOf s = 6 then some ⟨.black, .pawn⟩
  else if rankOf s = 7 then some ⟨.black, backRank (fileOf s)⟩
  else none

/-- Modelled from the spec: the Position default constructor builds the
standard starting position. -/
def startPosition : Position :=
  ⟨startBoard, .white, ⟨true, true, true, true⟩, none, 0, 1⟩

/-- Knight move offsets. -/
def knightOffs : List (Int × Int) :=
  [(1, 2), (2, 1), (2, -1), (1, -2), (-1, -2), (-2, -1), (-2, 1), (-1, 2)]

/-- King move offsets. -/
def kingOffs : List (Int × Int) :=
  [(1, -1), (1, 0), (1, 1), (0, -1), (0, 1), (-1, -1), (-1, 0), (-1, 1)]

/-- Rook ray directions. -/
def rookDirs : List (Int × Int) := [(1, 0), (-1, 0), (0, 1), (0, -1)]

/-- Bishop ray directions. -/
def bishopDirs : List (Int × Int) := [(1, 1), (1, -1), (-1, 1), (-1, -1)]

/-- Pawn advance direction of a color. -/
def pawnDir (c : Color) : Int := if c = .white then 1 else -1

/-- Whether `r` is the rank from which a pawn of color `c` promotes on its move. -/
def isPromoRank (c : Color) (r : Int) : Bool := if c = .white then r = 6 else r = 1

/-- Whether `r` is the starting rank of pawns of color `c`. -/
def isStartRank (c : Color) (r : Int) : Bool := if c = .white then r = 1 else r = 6

/-- Concatenation of the lists produced for each element (used instead of
`List.flatMap` so all supporting lemmas are local). -/
def catMap (f : α → List β) : List α → List β
  | [] => []
  | a :: l => f a ++ catMap f l

/-- First piece encountered along a ray (fuel-bounded scan). -/
def firstPiece (b : Board) : Nat → Int → Int → Int → Int → Option Piece
  | 0, _, _, _, _ => none
  | n + 1, r, f, dr, df =>
    match toSq? (r + dr) (f + df) with
    | none => none
    | some t =>
      match b t with
      | some q => some q
      | none => firstPiece b n (r + dr) (f + df) dr df

/-- Modelled from the spec: whether color `byC` attacks square `s` on board `b`. -/
def attacked (b : Board) (byC : Color) (s : Square) : Bool :=
  let r : Int := rankOf s
  let f : Int := fileOf s
  (knightOffs.any fun d =>
    match toSq? (r + d.1) (f + d.2) with
    | some t => decide (b t = some ⟨byC, .knight⟩)
    | none => false) ||
  (kingOffs.any fun d =>
    match toSq? (r + d.1) (f + d.2) with
    | some t => decide (b t = some ⟨byC, .king⟩)
    | none => false) ||
  ([(r - pawnDir byC, f - 1), (r - pawnDir byC, f + 1)].any fun q =>
    match toSq? q.1 q.2 with
    | some t => decide (b t = some ⟨byC, .pawn⟩)
    | none => false) ||
  (rookDirs.any fun d =>
    match firstPiece b 7 r f d.1 d.2 with
    | some q => decide (q = ⟨byC, .rook⟩ ∨ q = ⟨byC, .queen⟩)
    | none => false) ||
  (bishopDirs.any fun d =>
    match firstPiece b 7 r f d.1 d.2 with
    | some q => decide (q = ⟨byC, .bishop⟩ ∨ q = ⟨byC, .queen⟩)
    | none => false)

/-- Square of the king of color `c` (first match; defaulted for kingless boards). -/
def kingSquare (p : Position) (c : Color) : Square :=
  (((List.finRange 64).find? fun s => decide (p.board s = some ⟨c, .king⟩)).getD (sq 0))

/-- Whether the king of color `c` is attacked in `p`. -/
def inCheckC (p : Position) (c : Color) : Bool :=
  attacked p.board (Color.other c) (kingSquare p c)

/-- Whether the side to move is in check. -/
def inCheck (p : Position) : Bool := inCheckC p p.sideToMove

/-- Single-step moves (knight and king cores). -/
def stepMoves (b : Board) (c : Color) (s : Square) (offs : List (Int × Int)) : List Move :=
  offs.filterMap fun d =>
    match toSq? ((rankOf s : Int) + d.1) ((fileOf s : Int) + d.2) with
    | none => none
    | some t =>
      match b t with
      | some q => if q.color = c then none else some (mkMove s t 0)
      | none => some (mkMove s t 0)

/-- Sliding moves along one ray: advance over empty squares, stop at the first
piece, capturing it when it is hostile. -/
def rayMoves (b : Board) (c : Color) (s : Square) (dr df : Int) : Nat → Int → Int → List Move
  | 0, _, _ => []
  | n + 1, r, f =>
    match toSq? (r + dr) (f + df) with
    | none => []
    | some t =>
      match b t with
      | none => mkMove s t 0 :: rayMoves b c s dr df n (r + dr) (f + df)
      | some q => if q.color = c then [] else [mkMove s t 0]

/-- Sliding moves along a direction list. -/
def slideMoves (b : Board) (c : Color) (s : Square) (dirs : List (Int × Int)) : List Move :=
  catMap (fun d => rayMoves b c s d.1 d.2 7 (rankOf s) (fileOf s)) dirs

/-- Promotion move flags. -/
def promoFlags : List Nat := [5, 6, 7, 8]

/-- Modelled from the spec: pawn pushes (single and double), captures,
promotions and en-passant captures. -/
def pawnMoves (p : Position) (c : Color) (s : Square) : List Move :=
  let b := p.board
  let r : Int := rankOf s
  let f : Int := fileOf s
  let dir := pawnDir c
  let pushes :=
    match toSq? (r + dir) f with
    | none => []
    | some t1 =>
      match b t1 with
      | some _ => []
      | none =>
        let single :=
          if isPromoRank c r then promoFlags.map (mkMove s t1) else [mkMove s t1 0]
        let dbl :=
          if isStartRank c r then
            match toSq? (r + 2 * dir) f with
            | some t2 =>
              match b t2 with
              | none => [mkMove s t2 1]
              | some _ => []
            | none => []
          else []
        single ++ dbl
  let caps :=
    catMap (fun cf =>
      match toSq? (r + dir) cf with
      | none => []
      | some t =>
        match b t with
        | some q =>
          if q.color = c then []
          else if isPromoRank c r then promoFlags.map (mkMove s t) else [mkMove s t 0]
        | none =>
          if p.epTarget = some t then [mkMove s t 2] else []) [f - 1, f + 1]
  pushes ++ caps

/-- Kingside castling precondition: rights, empty path, rook present,
transit square not attacked. -/
def castleKOk (p : Position) (c : Color) : Bool :=
  (if c = .white then p.castling.wk else p.castling.bk) &&
  decide (p.board (rookToK c) = none) && decide (p.board (kingToK c) = none) &&
  decide (p.board (rookFromK c) = some ⟨c, .rook⟩) &&
  !(attacked p.board (Color.other c) (rookToK c))

/-- Queenside castling precondition: rights, empty path, rook present,
transit square not attacked. -/
def castleQOk (p : Position) (c : Color) : Bool :=
  (if c = .white then p.castling.wq else p.castling.bq) &&
  decide (p.board (knightHomeQ c) = none) && decide (p.board (kingToQ c) = none) &&
  decide (p.board (rookToQ c) = none) &&
  decide (p.board (rookFromQ c) = some ⟨c, .rook⟩) &&
  !(attacked p.board (Color.other c) (rookToQ c))

/-- Modelled from the spec: castling generation with rights, emptiness,
rook-presence and transit-safety checks (final king safety is left to the
legality filter). -/
def castleMoves (p : Position) (c : Color) (s : Square) : List Move :=
  if s = kingHome c then
    if attacked p.board (Color.other c) s then []
    else
      (if castleKOk p c then [mkMove s (kingToK c) 3] else []) ++
      (if castleQOk p c then [mkMove s (kingToQ c) 4] else [])
  else []

/-- Moves of one piece, dispatched on its kind. -/
def pieceMoves (p : Position) (s : Square) (pc : Piece) : List Move :=
  match pc.kind with
  | .pawn => pawnMoves p pc.color s
  | .knight => stepMoves p.board pc.color s knightOffs
  | .bishop => slideMoves p.board pc.color s bishopDirs
  | .rook => slideMoves p.board pc.color s rookDirs
  | .queen => slideMoves p.board pc.color s (rookDirs ++ bishopDirs)
  | .king => stepMoves p.board pc.color s kingOffs ++ castleMoves p pc.color s

/-- Pseudo-legal moves of one origin square. -/
def movesFrom (p : Position) (s : Square) : List Move :=
  match p.board s with
  | some pc => if pc.color = p.sideToMove then pieceMoves p s pc else []
  | none => []

/-- Modelled from the spec: the pseudo-legal move list of a Position. -/
def pseudoMoves (p : Position) : List Move :=
  catMap (movesFrom p) (List.finRange 64)

/-- Clear the castling rights invalidated by traffic on square `s`. -/
def clearCR (cr : CastlingRights) (s : Square) : CastlingRights :=
  let c1 := if s = sq 4 then ⟨false, false, cr.bk, cr.bq⟩ else cr
  let c2 := if s = sq 7 then ⟨false, c1.wq, c1.bk, c1.bq⟩ else c1
  let c3 := if s = sq 0 then ⟨c2.wk, false, c2.bk, c2.bq⟩ else c2
  let c4 := if s = sq 60 then ⟨c3.wk, c3.wq, false, false⟩ else c3
  let c5 := if s = sq 63 then ⟨c4.wk, c4.wq, false, c4.bq⟩ else c4
  if s = sq 56 then ⟨c5.wk, c5.wq, c5.bk, false⟩ else c5

/-- Modelled from the spec: the apply-time journal holding the minimal
side-information `undo` needs — the captured piece and its square, and the
prior castling rights, en-passant target and halfmove clock. -/
structure Undo where
  captured : Option Piece
  capSq : Square
  prevCastling : CastlingRights
  prevEp : Option Square
  prevHalfmove : Nat
deriving Repr

/-- The en-passant capture square: the file of the destination on the rank of
the origin. -/
def epCapSq (f t : Square) : Square := sq (8 * rankOf f + fileOf t)

/-- Modelled from the spec: apply a move, updating occupancy, the four special
move classes, castling-rights invalidation, en-passant creation/expiry,
halfmove-clock reset and the fullmove counter, and journal the
side-information needed to reverse the move. -/
def apply (p : Position) (m : Move) : Position × Undo :=
  let f := from_sq m
  let t := to_sq m
  let fl := flag_of m
  let b := p.board
  let stm := p.sideToMove
  let pc : Piece := (b f).getD ⟨stm, .pawn⟩
  let capSq : Square := if fl = 2 then epCapSq f t else t
  let captured := b capSq
  let placed : Piece := if 5 ≤ fl then ⟨stm, promoPiece fl⟩ else pc
  let bMain := bset (bset b f none) t (some placed)
  let bAll :=
    if fl = 2 then bset bMain capSq none
    else if fl = 3 then
      bset (bset bMain (rookFromK stm) none) (rookToK stm) (some ⟨stm, .rook⟩)
    else if fl = 4 then
      bset (bset bMain (rookFromQ stm) none) (rookToQ stm) (some ⟨stm, .rook⟩)
    else bMain
  let ep' : Option Square :=
    if fl = 1 then toSq? ((rankOf f : Int) + pawnDir stm) (fileOf f) else none
  let halfmove' := if pc.kind = .pawn ∨ captured.isSome then 0 else p.halfmove + 1
  let fullmove' := if stm = .black then p.fullmove + 1 else p.fullmove
  (⟨bAll, Color.other stm, clearCR (clearCR p.castling f) t, ep', halfmove', fullmove'⟩,
   ⟨captured, capSq, p.castling, p.epTarget, p.halfmove⟩)

/-- The position after a move (journal discarded). -/
def applyM (p : Position) (m : Move) : Position := (apply p m).1

/-- Modelled from the spec: legal moves — the pseudo-legal set filtered by the
check-safety test on the mover's own king. -/
def generate_moves (p : Position) : List Move :=
  (pseudoMoves p).filter fun m => inCheckC (applyM p m) p.sideToMove = false

/-- Modelled from the spec: undo a move using the apply-time journal,
restoring occupancy, side to move, castling rights, en-passant target,
halfmove clock and fullmove counter. -/
def undo (p' : Position) (m : Move) (u : Undo) : Position :=
  let f := from_sq m
  let t := to_sq m
  let fl := flag_of m
  let mover := Color.other p'.sideToMove
  let movedNow : Piece := (p'.board t).getD ⟨mover, .pawn⟩
  let orig : Piece := if 5 ≤ fl then ⟨mover, .pawn⟩ else movedNow
  let b1 := bset (bset p'.board t none) u.capSq u.captured
  let b2 := bset b1 f (some orig)
  let b3 :=
    if fl = 3 then
      bset (bset b2 (rookToK mover) none) (rookFromK mover) (some ⟨mover, .rook⟩)
    else if fl = 4 then
      bset (bset b2 (rookToQ mover) none) (rookFromQ mover) (some ⟨mover, .rook⟩)
    else b2
  ⟨b3, mover, u.prevCastling, u.prevEp, u.prevHalfmove,
   p'.fullmove - (if mover = .black then 1 else 0)⟩

/-- A derived position-identity value (the data model's transposition hash,
modelled as a function of the position rather than stored state). -/
def positionHash (p : Position) : Nat :=
  ((List.finRange 64).map fun s =>
    match p.board s with
    | none => 0
    | some pc =>
      (s.val + 1) * (match pc.kind with
        | .pawn => 2 | .knight => 3 | .bishop => 5
        | .rook => 7 | .queen => 11 | .king => 13) *
      (if pc.color = .white then 17 else 19)).sum

/-- The facts about a pseudo-legal move that make/unmake reversal relies on:
flag range, origin and destination distinct, a piece on the origin square,
the moving piece is the mover's pawn for promotions, destination emptiness
and capture-square geometry for en passant, and the full square layout for
castling. -/
structure MoveFacts (p : Position) (m : Move) : Prop where
  flag_le : flag_of m ≤ 8
  ne_ft : from_sq m ≠ to_sq m
  piece : ∃ pc, p.board (from_sq m) = some pc
  promo : 5 ≤ flag_of m → p.board (from_sq m) = some ⟨p.sideToMove, .pawn⟩
  ep_empty : flag_of m = 2 → p.board (to_sq m) = none
  ep_ne_f : flag_of m = 2 → epCapSq (from_sq m) (to_sq m) ≠ from_sq m
  ep_ne_t : flag_of m = 2 → epCapSq (from_sq m) (to_sq m) ≠ to_sq m
  ck : flag_of m = 3 →
    from_sq m = kingHome p.sideToMove ∧ to_sq m = kingToK p.sideToMove ∧
    p.board (kingToK p.sideToMove) = none ∧ p.board (rookToK p.sideToMove) = none ∧
    p.board (rookFromK p.sideToMove) = some ⟨p.sideToMove, .rook⟩
  cq : flag_of m = 4 →
    from_sq m = kingHome p.sideToMove ∧ to_sq m = kingToQ p.sideToMove ∧
    p.board (kingToQ p.sideToMove) = none ∧ p.board (rookToQ p.sideToMove) = none ∧
    p.board (rookFromQ p.sideToMove) = some ⟨p.sideToMove, .rook⟩

/-- Shape of an ordinary (flag-0) generated move rooted at `s`. -/
def StdMove (s : Square) (m : Move) : Prop :=
  from_sq m = s ∧ to_sq m ≠ s ∧ flag_of m = 0

attribute [ext] Position

/-- Modelled from the spec: the closed set of search modes (a full pipeline
with quiescence, and a reduced one without). -/
inductive SearchConfig where
  | FULL
  | SIMPLE
deriving DecidableEq, Repr

/-- Modelled from the spec: search constraints — a ply bound (≥ 1 by
contract) and the search-mode selector. -/
structure SearchParams where
  max_depth : Nat
  config : SearchConfig
deriving DecidableEq, Repr

/-- Mate score magnitude (terminal values decayed by ply stay distinguished
from all static evaluations). -/
def MATE : Int := 1000000

/-- Hard cap on the search ply, as in standard engine practice (the spec
gives no upper bound on depth; plies at or beyond the cap are scored
statically). -/
def MAX_PLY : Nat := 512

/-- Modelled from the spec: the Evaluator collaborator, an opaque pure
scoring function; modelled as bounded material count from the mover's view. -/
def pieceVal : PieceType → Int
  | .pawn => 100
  | .knight => 320
  | .bishop => 330
  | .rook => 500
  | .queen => 900
  | .king => 0

/-- Total material of one side. -/
def sideVal (b : Board) (c : Color) : Int :=
  ((List.finRange 64).map fun s =>
    match b s with
    | some pc => if pc.color = c then pieceVal pc.kind else 0
    | none => 0).sum

/-- Static evaluation from the side to move. -/
def evalPos (p : Position) : Int :=
  sideVal p.board p.sideToMove - sideVal p.board (Color.other p.sideToMove)

/-- Number of occupied squares (used as quiescence fuel: every capture
removes a piece). -/
def pieceCount (p : Position) : Nat :=
  ((List.finRange 64).filter fun s => (p.board s).isSome).length

/-- Whether a move captures (occupied destination or en passant). -/
def isCapture (p : Position) (m : Move) : Bool :=
  (p.board (to_sq m)).isSome || flag_of m == 2

/-- The capturing subset of the legal moves. -/
def captureMoves (p : Position) : List Move :=
  (generate_moves p).filter (isCapture p)

/-- Modelled from the spec: terminal scoring — checkmate as a large magnitude
against the side to move decayed by ply, stalemate as a draw. -/
def terminalScore (p : Position) (ply : Nat) : Int :=
  if inCheck p then -(MATE - (ply : Int)) else 0

/-- Maximum accumulator over quiescence children. -/
def qLoop (child : Move → Int) : List Move → Int → Int
  | [], best => best
  | mv :: rest, best => qLoop child rest (max best (child mv))

/-- Modelled from the spec: quiescence search — stand-pat evaluation improved
by capture continuations until a quiet position (capture fuel bounds the
recursion; every capture strictly reduces the piece count). -/
def qsearch : Nat → Position → Int
  | 0, p => evalPos p
  | fuel + 1, p =>
    qLoop (fun mv => -(qsearch fuel (applyM p mv))) (captureMoves p) (evalPos p)

/-- Leaf scoring by search mode: FULL extends with quiescence. -/
def leafVal (cfg : SearchConfig) (p : Position) : Int :=
  match cfg with
  | .FULL => qsearch (pieceCount p) p
  | .SIMPLE => evalPos p

/-- Fail-soft alpha-beta accumulation over the remaining moves of a node. -/
def abLoop (child : Move → Int → Int) (bound : Int) : List Move → Int → Int → Int
  | [], best, _ => best
  | mv :: rest, best, a =>
    let v := child mv a
    let b := max best v
    if bound ≤ b then b else abLoop child bound rest b (max a v)

/-- Modelled from the spec: fixed-depth alpha-beta negamax over the legal
move tree with mate/stalemate terminal values, the fifty-move draw cut,
and static scoring at depth zero (quiescence in FULL mode). -/
def abSearch (cfg : SearchConfig) : Nat → Position → Nat → Int → Int → Int
  | 0, p, ply, _, _ =>
    if (generate_moves p).isEmpty then terminalScore p ply
    else if 100 ≤ p.halfmove then 0
    else leafVal cfg p
  | d + 1, p, ply, a, bound =>
    match generate_moves p with
    | [] => terminalScore p ply
    | mv :: rest =>
      if 100 ≤ p.halfmove then 0
      else if MAX_PLY ≤ ply then leafVal cfg p
      else
        let child := fun (mv2 : Move) (a2 : Int) =>
          -(abSearch cfg d (applyM p mv2) (ply + 1) (-bound) (-a2))
        let v0 := child mv a
        abLoop child bound rest v0 (max a v0)

/-- Score of one root move against the current best (full root window). -/
def rootScore (cfg : SearchConfig) (p : Position) (d : Nat) (a : Int) (mv : Move) : Int :=
  -(abSearch cfg d (applyM p mv) 1 (-(MATE + 1)) (-a))

/-- One root-move step: keep the strictly better candidate. -/
def rootStep (cfg : SearchConfig) (p : Position) (d : Nat) (acc : Move × Int) (mv : Move) :
    Move × Int :=
  let v := rootScore cfg p d acc.2 mv
  if acc.2 < v then (mv, v) else acc

/-- Best root move and score of one full-width depth iteration. -/
def bestAtDepth (cfg : SearchConfig) (p : Position) (dep : Nat) : Move × Int :=
  match generate_moves p with
  | [] => (NULL_MOVE, 0)
  | mv :: rest =>
    rest.foldl (rootStep cfg p (dep - 1)) (mv, rootScore cfg p (dep - 1) (-(MATE + 1)) mv)

/-- Modelled from the spec: `Searcher::search` — return the null-move
sentinel immediately when the root has no legal move, otherwise iterative
deepening from depth 1 up to `max_depth`, returning the best move of the
deepest completed iteration. -/
def search (p : Position) (params : SearchParams) : Move :=
  match generate_moves p with
  | [] => NULL_MOVE
  | mv :: _ =>
    ((List.range params.max_depth).foldl
      (fun _ d => bestAtDepth params.config p (d + 1)) (mv, -(MATE + 1))).1

/-- State-threaded quiescence loop (make/unmake on one mutable board). -/
def qLoopSt (child : Move → Position → Int × Position) :
    List Move → Int → Position → Int × Position
  | [], best, p => (best, p)
  | mv :: rest, best, p =>
    let r := child mv p
    qLoopSt child rest (max best r.1) r.2

/-- Modelled from the spec: quiescence as implemented — making and unmaking
each capture on the shared board using the apply-time journal. -/
def qsearchSt : Nat → Position → Int × Position
  | 0, p => (evalPos p, p)
  | fuel + 1, p =>
    qLoopSt (fun mv q =>
      let pu := ChessAI.apply q mv
      let vr := qsearchSt fuel pu.1
      (-(vr.1), undo vr.2 mv pu.2)) (captureMoves p) (evalPos p) p

/-- State-threaded leaf scoring. -/
def leafValSt (cfg : SearchConfig) (p : Position) : Int × Position :=
  match cfg with
  | .FULL => qsearchSt (pieceCount p) p
  | .SIMPLE => (evalPos p, p)

/-- State-threaded alpha-beta accumulation. -/
def abLoopSt (child : Move → Int → Position → Int × Position) (bound : Int) :
    List Move → Int → Int → Position → Int × Position
  | [], best, _, p => (best, p)
  | mv :: rest, best, a, p =>
    let r := child mv a p
    let b := max best r.1
    if bound ≤ b then (b, r.2) else abLoopSt child bound rest b (max a r.1) r.2

/-- Modelled from the spec: the alpha-beta recursion as implemented — each
node makes a move, searches the child, and unmakes it via the journal,
threading the one mutable board through the loop. -/
def abSearchSt (cfg : SearchConfig) : Nat → Position → Nat → Int → Int → Int × Position
  | 0, p, ply, _, _ =>
    if (generate_moves p).isEmpty then (terminalScore p ply, p)
    else if 100 ≤ p.halfmove then (0, p)
    else leafValSt cfg p
  | d + 1, p, ply, a, bound =>
    match generate_moves p with
    | [] => (terminalScore p ply, p)
    | mv :: rest =>
      if 100 ≤ p.halfmove then (0, p)
      else if MAX_PLY ≤ ply then leafValSt cfg p
      else
        let child := fun (mv2 : Move) (a2 : Int) (q : Position) =>
          let pu := ChessAI.apply q mv2
          let vr := abSearchSt cfg d pu.1 (ply + 1) (-bound) (-a2)
          (-(vr.1), undo vr.2 mv2 pu.2)
        let r0 := child mv a p
        abLoopSt child bound rest r0.1 (max a r0.1) r0.2

/-- State-threaded root step. -/
def rootStepSt (cfg : SearchConfig) (d : Nat) (acc : (Move × Int) × Position) (mv : Move) :
    (Move × Int) × Position :=
  let pu := ChessAI.apply acc.2 mv
  let vr := abSearchSt cfg d pu.1 1 (-(MATE + 1)) (-(acc.1.2))
  let v := -(vr.1)
  let p2 := undo vr.2 mv pu.2
  if acc.1.2 < v then ((mv, v), p2) else (acc.1, p2)

/-- State-threaded depth iteration. -/
def bestAtDepthSt (cfg : SearchConfig) (p : Position) (dep : Nat) : (Move × Int) × Position :=
  match generate_moves p with
  | [] => ((NULL_MOVE, 0), p)
  | mv :: rest =>
    let pu := ChessAI.apply p mv
    let vr := abSearchSt cfg (dep - 1) pu.1 1 (-(MATE + 1)) (MATE + 1)
    rest.foldl (rootStepSt cfg (dep - 1)) ((mv, -(vr.1)), undo vr.2 mv pu.2)

/-- Modelled from the spec: the search entry point as implemented, returning
the chosen move together with the board it worked on (the caller's Position
after the call; make/unmake must leave it untouched). -/
def searchSt (p : Position) (params : SearchParams) : Move × Position :=
  match generate_moves p with
  | [] => (NULL_MOVE, p)
  | mv :: _ =>
    let r := (List.range params.max_depth).foldl
      (fun acc d => bestAtDepthSt params.config acc.2 (d + 1)) ((mv, -(MATE + 1)), p)
    (r.1.1, r.2)

/-- A move delivering immediate checkmate: the resulting position has no
legal reply and its side to move stands in check. -/
def deliversMate (p : Position) (m : Move) : Prop :=
  generate_moves (applyM p m) = [] ∧ inCheck (applyM p m) = true

/-- Cost model of quiescence: nodes a full-width quiescence visit may touch. -/
def qNodes : Nat → Position → Nat
  | 0, _ => 1
  | fuel + 1, p => 1 + ((captureMoves p).map fun mv => qNodes fuel (applyM p mv)).sum

/-- Cost model of leaf scoring. -/
def leafNodes (cfg : SearchConfig) (p : Position) : Nat :=
  match cfg with
  | .FULL => qNodes (pieceCount p) p
  | .SIMPLE => 1

/-- Cost model of one fixed-depth search: nodes the full-width tree contains
(alpha-beta cutoffs only ever visit fewer). -/
def abNodes (cfg : SearchConfig) : Nat → Position → Nat
  | 0, p => 1 + leafNodes cfg p
  | d + 1, p =>
    1 + leafNodes cfg p + ((generate_moves p).map fun mv => abNodes cfg d (applyM p mv)).sum

/-- Cost model of the whole iterative-deepening loop. -/
def searchNodes (p : Position) (params : SearchParams) : Nat :=
  ((List.range params.max_depth).map fun d =>
    1 + ((generate_moves p).map fun mv => abNodes params.config d (applyM p mv)).sum).sum

/-- A uniform bound on the number of legal moves of any position. -/
def BRANCH : Nat := 3584

/-- Closed-form bound on `qNodes`. -/
def qNodeBound : Nat → Nat
  | 0 => 1
  | f + 1 => 1 + BRANCH * qNodeBound f

/-- Closed-form bound on `abNodes`. -/
def abNodeBound : Nat → Nat
  | 0 => 1 + qNodeBound 64
  | d + 1 => 1 + qNodeBound 64 + BRANCH * abNodeBound d

/-- Closed-form bound on `searchNodes` as a function of the depth limit. -/
def searchNodeBound (n : Nat) : Nat := n * (1 + BRANCH * abNodeBound n)

/-- Modelled from the spec: the output lines of the protocol layer. -/
inductive Output where
  | msg (s : String)
  | bestmove (m : Move)
  | err (s : String)
deriving DecidableEq, Repr

/-- Modelled from the spec: the session state machine over the command
surface — idle, position-set, searching (with the worker's remaining poll
budget, the cancellation flag, the infinite-search flag and the result it
will report) and search-complete. -/
inductive SessionMode where
  | idle
  | positionSet
  | searching (fuel : Nat) (cancel : Bool) (infinite : Bool) (best : Move)
  | searchComplete
deriving DecidableEq, Repr

/-- Modelled from the spec: the process-wide session state — current
Position, the state-machine mode holding the at-most-one in-flight search,
and the quit flag. -/
structure EngineState where
  pos : Position
  mode : SessionMode
  quitted : Bool

/-- Split a character list into space-separated words (accumulator reversed). -/
def splitTokens : List Char → List Char → List String
  | [], acc => if acc.isEmpty then [] else [String.mk acc.reverse]
  | c :: cs, acc =>
    if c = ' ' then
      if acc.isEmpty then splitTokens cs [] else String.mk acc.reverse :: splitTokens cs []
    else splitTokens cs (c :: acc)

/-- Whitespace tokenization of one command line. -/
def tokenize (s : String) : List String := splitTokens s.toList []

/-- File index of a coordinate character. -/
def fileOfChar (c : Char) : Option Nat :=
  let n := c.toNat
  if 97 ≤ n ∧ n ≤ 104 then some (n - 97) else none

/-- Rank index of a coordinate character. -/
def rankOfChar (c : Char) : Option Nat :=
  let n := c.toNat
  if 49 ≤ n ∧ n ≤ 56 then some (n - 49) else none

/-- Parse a two-character square name. -/
def parseSquare (cs : List Char) : Option Square :=
  match cs with
  | [cf, cr] =>
    match fileOfChar cf, rankOfChar cr with
    | some f, some r => some (sq (8 * r + f))
    | _, _ => none
  | _ => none

/-- Promotion piece letter to move flag. -/
def promoFlagOfChar (c : Char) : Option Nat :=
  if c = 'n' then some 5
  else if c = 'b' then some 6
  else if c = 'r' then some 7
  else if c = 'q' then some 8
  else none

/-- Find the legal move matching origin, destination and promotion choice. -/
def findMove (p : Position) (f t : Square) (promo : Option Nat) : Option Move :=
  (generate_moves p).find? fun mv =>
    from_sq mv == f && to_sq mv == t &&
      (match promo with
       | some fl => flag_of mv == fl
       | none => decide (flag_of mv < 5))

/-- Modelled from the spec: parse a coordinate move string and validate it
against the legal moves of the position (illegal or unparsable text fails). -/
def parseMoveIn (p : Position) (s : String) : Option Move :=
  match s.toList with
  | [a1, a2, a3, a4] =>
    (parseSquare [a1, a2]).bind fun f =>
      (parseSquare [a3, a4]).bind fun t => findMove p f t none
  | [a1, a2, a3, a4, a5] =>
    (parseSquare [a1, a2]).bind fun f =>
      (parseSquare [a3, a4]).bind fun t =>
        (promoFlagOfChar a5).bind fun fl => findMove p f t (some fl)
  | _ => none

/-- Piece letter of the board-description notation. -/
def pieceOfChar : Char → Option Piece
  | 'P' => some ⟨.white, .pawn⟩
  | 'N' => some ⟨.white, .knight⟩
  | 'B' => some ⟨.white, .bishop⟩
  | 'R' => some ⟨.white, .rook⟩
  | 'Q' => some ⟨.white, .queen⟩
  | 'K' => some ⟨.white, .king⟩
  | 'p' => some ⟨.black, .pawn⟩
  | 'n' => some ⟨.black, .knight⟩
  | 'b' => some ⟨.black, .bishop⟩
  | 'r' => some ⟨.black, .rook⟩
  | 'q' => some ⟨.black, .queen⟩
  | 'k' => some ⟨.black, .king⟩
  | _ => none

/-- Fill a board from the piece-placement field (ranks 8 down to 1). -/
def placeChars : List Char → Int → Int → Board → Option Board
  | [], r, f, b => if r = 0 ∧ f = 8 then some b else none
  | c :: cs, r, f, b =>
    if c = '/' then
      if f = 8 ∧ 1 ≤ r then placeChars cs (r - 1) 0 b else none
    else if c.isDigit then
      let k : Int := (c.toNat - 48 : Nat)
      if 1 ≤ k ∧ f + k ≤ 8 then placeChars cs r (f + k) b else none
    else
      match pieceOfChar c with
      | some pc =>
        match toSq? r f with
        | some t => placeChars cs r (f + 1) (bset b t (some pc))
        | none => none
      | none => none

/-- Parse the piece-placement field of a board description. -/
def parseFENBoard (s : String) : Option Board := placeChars s.toList 7 0 emptyBoard

/-- Parse the side-to-move field. -/
def parseFENSide (s : String) : Option Color :=
  match s.toList with
  | ['w'] => some .white
  | ['b'] => some .black
  | _ => none

/-- Accumulate castling-rights letters. -/
def castlingOfChars : List Char → CastlingRights → Option CastlingRights
  | [], cr => some cr
  | c :: cs, cr =>
    if c = 'K' then castlingOfChars cs ⟨true, cr.wq, cr.bk, cr.bq⟩
    else if c = 'Q' then castlingOfChars cs ⟨cr.wk, true, cr.bk, cr.bq⟩
    else if c = 'k' then castlingOfChars cs ⟨cr.wk, cr.wq, true, cr.bq⟩
    else if c = 'q' then castlingOfChars cs ⟨cr.wk, cr.wq, cr.bk, true⟩
    else none

/-- Parse the castling field. -/
def parseFENCastling (s : String) : Option CastlingRights :=
  match s.toList with
  | ['-'] => some ⟨false, false, false, false⟩
  | cs => castlingOfChars cs ⟨false, false, false, false⟩

/-- Parse the en-passant field. -/
def parseFENEp (s : String) : Option (Option Square) :=
  match s.toList with
  | ['-'] => some none
  | [cf, cr] =>
    match parseSquare [cf, cr] with
    | some t => some (some t)
    | none => none
  | _ => none

/-- Modelled from the spec: parse a six-field board-description string into
a Position. -/
def parseFEN (b side castl ep half full : String) : Option Position :=
  match parseFENBoard b, parseFENSide side, parseFENCastling castl, parseFENEp ep,
      half.toNat?, full.toNat? with
  | some bd, some c, some cr, some e, some h, some f => some ⟨bd, c, cr, e, h, f⟩
  | _, _, _, _, _, _ => none

/-- Replay a list of move strings through `apply`, failing on the first
unparsable or illegal one (the session keeps its old position then). -/
def replayMoves (p : Position) (ms : List String) : Option Position :=
  ms.foldl (fun acc s => acc.bind fun q => (parseMoveIn q s).map (applyM q)) (some p)

/-- Modelled from the spec: arguments of the position-setting command —
the start layout or a board description, plus an optional replay list. -/
def parsePositionTokens : List String → Option Position
  | "startpos" :: rest =>
    (match rest with
     | [] => some startPosition
     | "moves" :: ms => replayMoves startPosition ms
     | _ => none)
  | "fen" :: f1 :: f2 :: f3 :: f4 :: f5 :: f6 :: rest =>
    (parseFEN f1 f2 f3 f4 f5 f6).bind fun p =>
      match rest with
      | [] => some p
      | "moves" :: ms => replayMoves p ms
      | _ => none
  | _ => none

/-- Modelled from the spec: arguments of the start-search command — an
optional depth, time budget or infinite flag, parsed into SearchParams plus
the worker's poll budget. -/
def parseGoTokens : List String → Option (SearchParams × Nat × Bool)
  | [] => some (⟨4, .FULL⟩, 1000, false)
  | "depth" :: n :: [] =>
    n.toNat?.bind fun k => if 1 ≤ k then some (⟨k, .FULL⟩, 1000, false) else none
  | "movetime" :: t :: [] =>
    t.toNat?.bind fun ms => some (⟨4, .FULL⟩, ms, false)
  | "infinite" :: [] => some (⟨4, .FULL⟩, 0, true)
  | _ => none

/-- The parsed command surface (the session parses text into a command and
then dispatches, per the data-flow of the design). -/
inductive Command where
  | uci
  | isready
  | setpos (p : Position)
  | go (params : SearchParams) (fuel : Nat) (infinite : Bool)
  | stop
  | quit
  | invalid

/-- Modelled from the spec: parse one protocol line; unknown names and
malformed arguments map to `invalid`. -/
def parseCommand (line : String) : Command :=
  match tokenize line with
  | "uci" :: [] => .uci
  | "isready" :: [] => .isready
  | "position" :: rest =>
    (match parsePositionTokens rest with
     | some p => .setpos p
     | none => .invalid)
  | "go" :: rest =>
    (match parseGoTokens rest with
     | some gp => .go gp.1 gp.2.1 gp.2.2
     | none => .invalid)
  | "stop" :: [] => .stop
  | "quit" :: [] => .quit
  | _ => .invalid

/-- Whether a line is a recognized command with well-formed arguments. -/
def wellFormed (line : String) : Bool :=
  match parseCommand line with
  | .invalid => false
  | _ => true

/-- Whether a line is a start-search command. -/
def isStart (line : String) : Bool :=
  match parseCommand line with
  | .go _ _ _ => true
  | _ => false

/-- Whether a line is a quit command. -/
def isQuit (line : String) : Bool :=
  match parseCommand line with
  | .quit => true
  | _ => false

/-- Error text for unknown or malformed lines. -/
def errText : String := "error: unknown or malformed command"
/-- Error text for commands rejected while a search is running. -/
def busyText : String := "error: search in progress"
/-- Error text for a stop with no active search. -/
def notSearchingText : String := "error: no active search"
/-- Identity line of the engine. -/
def idText : String := "id name c0br4"
/-- Ready-acknowledgement token. -/
def uciokText : String := "uciok"
/-- Liveness-acknowledgement token. -/
def readyokText : String := "readyok"

/-- Modelled from the spec: command dispatch — identity and readiness
queries answer in any state, position-setting and start-search are rejected
while searching, start-search snapshots the position and spawns the worker
(its future answer precomputed on the snapshot), stop raises the
cancellation flag, quit ends the session, and anything unrecognized or
malformed is reported as an error line and otherwise ignored. -/
def handle_command (st : EngineState) (line : String) : EngineState × List Output :=
  if st.quitted then (st, [])
  else
    match parseCommand line with
    | .uci => (st, [Output.msg idText, Output.msg uciokText])
    | .isready => (st, [Output.msg readyokText])
    | .setpos p =>
      (match st.mode with
       | .searching f c i b => (st, [Output.err busyText])
       | _ => (⟨p, .positionSet, st.quitted⟩, []))
    | .go params fuel inf =>
      (match st.mode with
       | .searching f c i b => (st, [Output.err busyText])
       | _ => (⟨st.pos, .searching fuel false inf (search st.pos params), st.quitted⟩, []))
    | .stop =>
      (match st.mode with
       | .searching f c i b => (⟨st.pos, .searching f true i b, st.quitted⟩, [])
       | _ => (st, [Output.err notSearchingText]))
    | .quit => (⟨st.pos, st.mode, true⟩, [])
    | .invalid => (st, [Output.err errText])

/-- Modelled from the spec: one poll interval of the worker — it observes
the cancellation flag (or exhausts its budget) and reports its result as
the single bestmove of the search, completing the lifecycle. -/
def workerTick (st : EngineState) : EngineState × List Output :=
  if st.quitted then (st, [])
  else
    match st.mode with
    | .searching fuel cancel inf best =>
      if cancel then (⟨st.pos, .searchComplete, st.quitted⟩, [Output.bestmove best])
      else if !inf && fuel == 0 then
        (⟨st.pos, .searchComplete, st.quitted⟩, [Output.bestmove best])
      else (⟨st.pos, .searching (fuel - 1) cancel inf best, st.quitted⟩, [])
    | _ => (st, [])

/-- An event of the asynchronous session: a command line arriving on the
command thread, or one poll interval of the worker thread. -/
inductive Ev where
  | input (line : String)
  | tick
deriving DecidableEq

/-- One step of the interleaved session. -/
def stepS (st : EngineState) : Ev → EngineState × List Output
  | .input l => handle_command st l
  | .tick => workerTick st

/-- Run the session over an event schedule, accumulating outputs. -/
def runS (st : EngineState) : List Ev → EngineState × List Output
  | [] => (st, [])
  | e :: evs =>
    let r := stepS st e
    let r2 := runS r.1 evs
    (r2.1, r.2 ++ r2.2)

/-- Number of bestmove lines in an output list. -/
def countBM : List Output → Nat
  | [] => 0
  | .bestmove _ :: rest => 1 + countBM rest
  | _ :: rest => countBM rest

/-- Whether the mode holds an in-flight search. -/
def isSearchingMode : SessionMode → Bool
  | .searching _ _ _ _ => true
  | _ => false

/-- A demonstration position with a mate in one ply: white rook a1 and king
g6 against the black king on h8; Ra8 is checkmate. -/
def mateDemo : Position :=
  ⟨bset (bset (bset emptyBoard (sq 0) (some ⟨.white, .rook⟩)) (sq 46) (some ⟨.white, .king⟩))
     (sq 63) (some ⟨.black, .king⟩), .white, ⟨false, false, false, false⟩, none, 0, 1⟩

/-- A line that is no command of the protocol. -/
def badLine : String := "xyzzy 123"

theorem from_sq_mkMove (f t : Square) (fl : Nat) : from_sq (mkMove f t fl) = f := by
  have hf := f.isLt
  have ht := t.isLt
  apply Fin.ext
  show (f.val + 64 * t.val + 4096 * fl) % 64 = f.val
  omega

theorem to_sq_mkMove (f t : Square) (fl : Nat) : to_sq (mkMove f t fl) = t := by
  have hf := f.isLt
  have ht := t.isLt
  apply Fin.ext
  show (f.val + 64 * t.val + 4096 * fl) / 64 % 64 = t.val
  omega

theorem flag_of_mkMove (f t : Square) (fl : Nat) : flag_of (mkMove f t fl) = fl := by
  have hf := f.isLt
  have ht := t.isLt
  show (f.val + 64 * t.val + 4096 * fl) / 4096 = fl
  omega

theorem bset_apply (b : Board) (x : Square) (v : Option Piece) (y : Square) :
    bset b x v y = if y = x then v else b y := rfl

theorem toSq?_coords {r f : Int} {t : Square} (h : toSq? r f = some t) :
    (rankOf t : Int) = r ∧ (fileOf t : Int) = f := by
  unfold toSq? at h
  split at h
  · next hc =>
    obtain ⟨h1, h2, h3, h4⟩ := hc
    injection h with h'
    subst h'
    unfold rankOf fileOf
    constructor
    · show ((((r * 8 + f).toNat : Nat) / 8 : Nat) : Int) = r
      omega
    · show ((((r * 8 + f).toNat : Nat) % 8 : Nat) : Int) = f
      omega
  · exact absurd h (by simp)

theorem square_ext {s t : Square} (h1 : rankOf s = rankOf t) (h2 : fileOf s = fileOf t) :
    s = t := by
  apply Fin.ext
  unfold rankOf at h1
  unfold fileOf at h2
  omega

theorem mem_catMap {f : α → List β} {l : List α} {b : β} :
    b ∈ catMap f l ↔ ∃ a ∈ l, b ∈ f a := by
  induction l with
  | nil => simp [catMap]
  | cons x xs ih =>
    simp only [catMap, List.mem_append, ih, List.mem_cons]
    constructor
    · rintro (h | ⟨a, ha, hb⟩)
      · exact ⟨x, Or.inl rfl, h⟩
      · exact ⟨a, Or.inr ha, hb⟩
    · rintro ⟨a, ha | ha, hb⟩
      · subst ha
        exact Or.inl hb
      · exact Or.inr ⟨a, ha, hb⟩

theorem epCapSq_coords (f t : Square) :
    rankOf (epCapSq f t) = rankOf f ∧ fileOf (epCapSq f t) = fileOf t := by
  have h1 : rankOf f < 8 := by unfold rankOf; omega
  have h2 : fileOf t < 8 := by unfold fileOf; omega
  unfold epCapSq sq rankOf fileOf at *
  constructor
  · show (8 * (f.val / 8) + t.val % 8) % 64 / 8 = f.val / 8
    omega
  · show (8 * (f.val / 8) + t.val % 8) % 64 % 8 = t.val % 8
    omega

theorem stdMoveFacts {p : Position} {m : Move} {s : Square} {pc : Piece}
    (h : StdMove s m) (hb : p.board s = some pc) : MoveFacts p m := by
  obtain ⟨hf, ht, hfl⟩ := h
  refine ⟨by omega, ?_, ⟨pc, by rw [hf]; exact hb⟩, ?_, ?_, ?_, ?_, ?_, ?_⟩ <;>
    first
      | (intro hx; omega)
      | (rw [hf]; intro he; exact absurd he.symm ht)

theorem mem_stepMoves_std {b : Board} {c : Color} {s : Square} {offs : List (Int × Int)}
    {m : Move} (h : m ∈ stepMoves b c s offs)
    (hoffs : ∀ d ∈ offs, d.1 ≠ 0 ∨ d.2 ≠ 0) : StdMove s m := by
  unfold stepMoves at h
  obtain ⟨d, hd, hval⟩ := List.mem_filterMap.mp h
  have hne := hoffs d hd
  split at hval
  · exact absurd hval (by simp)
  · next t hts =>
    obtain ⟨hr, hf⟩ := toSq?_coords hts
    have hstd : m = mkMove s t 0 → StdMove s m := by
      intro hm
      subst hm
      refine ⟨from_sq_mkMove .., ?_, flag_of_mkMove ..⟩
      rw [to_sq_mkMove]
      intro he
      subst he
      omega
    split at hval
    · split at hval
      · exact absurd hval (by simp)
      · exact hstd (by injection hval with h2; exact h2.symm)
    · exact hstd (by injection hval with h2; exact h2.symm)

theorem mem_rayMoves_std {b : Board} {c : Color} {s : Square} {dr df : Int}
    (hd : dr ≠ 0 ∨ df ≠ 0) :
    ∀ (n : Nat) (r f : Int),
      (0 < dr → (rankOf s : Int) ≤ r) → (dr < 0 → r ≤ (rankOf s : Int)) →
      (dr = 0 → r = (rankOf s : Int)) →
      (0 < df → (fileOf s : Int) ≤ f) → (df < 0 → f ≤ (fileOf s : Int)) →
      (df = 0 → f = (fileOf s : Int)) →
      ∀ {m : Move}, m ∈ rayMoves b c s dr df n r f → StdMove s m := by
  intro n
  induction n with
  | zero =>
    intro r f _ _ _ _ _ _ m hm
    simp [rayMoves] at hm
  | succ k ih =>
    intro r f h1 h2 h3 h4 h5 h6 m hm
    unfold rayMoves at hm
    split at hm
    · simp at hm
    · next t hts =>
      obtain ⟨hr, hf⟩ := toSq?_coords hts
      have hstd : StdMove s (mkMove s t 0) := by
        refine ⟨from_sq_mkMove .., ?_, flag_of_mkMove ..⟩
        rw [to_sq_mkMove]
        intro he
        subst he
        omega
      split at hm
      · rcases List.mem_cons.mp hm with hm | hm
        · subst hm
          exact hstd
        · refine ih (r + dr) (f + df) ?_ ?_ ?_ ?_ ?_ ?_ hm <;> intro hx <;> omega
      · split at hm
        · simp at hm
        · rcases List.mem_singleton.mp hm with hm
          subst hm
          exact hstd

theorem mem_slideMoves_std {b : Board} {c : Color} {s : Square}
    {dirs : List (Int × Int)} {m : Move} (h : m ∈ slideMoves b c s dirs)
    (hdirs : ∀ d ∈ dirs, d.1 ≠ 0 ∨ d.2 ≠ 0) : StdMove s m := by
  unfold slideMoves at h
  obtain ⟨d, hd, hm⟩ := mem_catMap.mp h
  exact mem_rayMoves_std (hdirs d hd) 7 _ _
    (by intro hx; omega) (by intro hx; omega) (by intro hx; omega)
    (by intro hx; omega) (by intro hx; omega) (by intro hx; omega) hm

theorem pawnFactsStd {p : Position} {s : Square} {pc : Piece} {m : Move}
    (hb : p.board s = some pc) (t : Square) (fl : Nat)
    (hfl : fl = 0 ∨ fl = 1) (hts : t ≠ s) (hm : m = mkMove s t fl) : MoveFacts p m := by
  subst hm
  refine ⟨?_, ?_, ⟨pc, by rw [from_sq_mkMove]; exact hb⟩, ?_, ?_, ?_, ?_, ?_, ?_⟩
  · rw [flag_of_mkMove]
    omega
  · rw [from_sq_mkMove, to_sq_mkMove]
    intro he
    exact hts he.symm
  all_goals
    intro hx
    rw [flag_of_mkMove] at hx
    exact absurd hx (by omega)

theorem pawnFactsPromo {p : Position} {s : Square} {m : Move}
    (hb : p.board s = some ⟨p.sideToMove, .pawn⟩) (t : Square) (fl : Nat)
    (hfl : 5 ≤ fl ∧ fl ≤ 8) (hts : t ≠ s) (hm : m = mkMove s t fl) : MoveFacts p m := by
  subst hm
  refine ⟨?_, ?_, ⟨_, by rw [from_sq_mkMove]; exact hb⟩, ?_, ?_, ?_, ?_, ?_, ?_⟩
  · rw [flag_of_mkMove]
    omega
  · rw [from_sq_mkMove, to_sq_mkMove]
    intro he
    exact hts he.symm
  · intro hx
    rw [from_sq_mkMove]
    exact hb
  all_goals
    intro hx
    rw [flag_of_mkMove] at hx
    exact absurd hx (by omega)

theorem pawnFactsEp {p : Position} {s : Square} {pc : Piece} {m : Move}
    (hb : p.board s = some pc) (t : Square)
    (hemp : p.board t = none) (hrank : rankOf t ≠ rankOf s) (hfile : fileOf t ≠ fileOf s)
    (hm : m = mkMove s t 2) : MoveFacts p m := by
  subst hm
  have hne : t ≠ s := fun he => hrank (by rw [he])
  refine ⟨?_, ?_, ⟨pc, by rw [from_sq_mkMove]; exact hb⟩, ?_, ?_, ?_, ?_, ?_, ?_⟩
  · rw [flag_of_mkMove]
    omega
  · rw [from_sq_mkMove, to_sq_mkMove]
    intro he
    exact hne he.symm
  · intro hx
    rw [flag_of_mkMove] at hx
    exact absurd hx (by omega)
  · intro hx
    rw [to_sq_mkMove]
    exact hemp
  · intro hx
    rw [from_sq_mkMove, to_sq_mkMove]
    intro he
    have h2 := (epCapSq_coords s t).2
    rw [he] at h2
    exact hfile h2.symm
  · intro hx
    rw [from_sq_mkMove, to_sq_mkMove]
    intro he
    have h1 := (epCapSq_coords s t).1
    rw [he] at h1
    exact hrank h1
  all_goals
    intro hx
    rw [flag_of_mkMove] at hx
    exact absurd hx (by omega)

theorem pawnDir_cases (c : Color) : pawnDir c = 1 ∨ pawnDir c = -1 := by
  unfold pawnDir
  split
  · exact Or.inl rfl
  · exact Or.inr rfl

theorem mem_promoFlags {fl : Nat} (h : fl ∈ promoFlags) : 5 ≤ fl ∧ fl ≤ 8 := by
  simp only [promoFlags, List.mem_cons, List.not_mem_nil, or_false] at h
  omega

theorem mem_pawnMoves_facts {p : Position} {s : Square} {c : Color} {m : Move}
    (hb : p.board s = some ⟨c, .pawn⟩) (hc : c = p.sideToMove)
    (h : m ∈ pawnMoves p c s) : MoveFacts p m := by
  have hpb : p.board s = some ⟨p.sideToMove, .pawn⟩ := by rw [← hc]; exact hb
  have hdir := pawnDir_cases c
  unfold pawnMoves at h
  rcases List.mem_append.mp h with h | h
  · -- pushes
    split at h
    · simp at h
    · next t1 hts1 =>
      obtain ⟨hr1, hf1⟩ := toSq?_coords hts1
      have ht1 : t1 ≠ s := by
        intro he
        subst he
        omega
      split at h
      · simp at h
      · rcases List.mem_append.mp h with h | h
        · -- single push (with or without promotion)
          split at h
          · obtain ⟨fl, hfl, hm⟩ := List.mem_map.mp h
            have hflb := mem_promoFlags hfl
            exact pawnFactsPromo hpb t1 fl hflb ht1 hm.symm
          · rcases List.mem_singleton.mp h with rfl
            exact pawnFactsStd hb t1 0 (Or.inl rfl) ht1 rfl
        · -- double push
          split at h
          · split at h
            · next t2 hts2 =>
              obtain ⟨hr2, hf2⟩ := toSq?_coords hts2
              split at h
              · rcases List.mem_singleton.mp h with rfl
                have ht2 : t2 ≠ s := by
                  intro he
                  subst he
                  omega
                exact pawnFactsStd hb t2 1 (Or.inr rfl) ht2 rfl
              · simp at h
            · simp at h
          · simp at h
  · -- captures
    obtain ⟨cf, hcf, h⟩ := mem_catMap.mp h
    simp only [List.mem_cons, List.mem_singleton, List.not_mem_nil, or_false] at hcf
    split at h
    · simp at h
    · next t hts =>
      obtain ⟨hr, hf⟩ := toSq?_coords hts
      have ht : t ≠ s := by
        intro he
        subst he
        omega
      split at h
      · -- occupied target: plain or promotion capture
        split at h
        · simp at h
        · split at h
          · obtain ⟨fl, hfl, hm⟩ := List.mem_map.mp h
            have hflb := mem_promoFlags hfl
            exact pawnFactsPromo hpb t fl hflb ht hm.symm
          · rcases List.mem_singleton.mp h with rfl
            exact pawnFactsStd hb t 0 (Or.inl rfl) ht rfl
      · -- empty target: en passant
        next hemp =>
        split at h
        · rcases List.mem_singleton.mp h with rfl
          have hrk : rankOf t ≠ rankOf s := by
            intro he
            omega
          have hfk : fileOf t ≠ fileOf s := by
            intro he
            rcases hcf with rfl | rfl <;> omega
          exact pawnFactsEp hb t hemp hrk hfk rfl
        · simp at h

theorem mem_castleMoves_facts {p : Position} {s : Square} {c : Color} {pc : Piece} {m : Move}
    (hb : p.board s = some pc) (hc : c = p.sideToMove)
    (h : m ∈ castleMoves p c s) : MoveFacts p m := by
  unfold castleMoves at h
  split at h
  · next hs =>
    split at h
    · simp at h
    · rcases List.mem_append.mp h with h | h
      · split at h
        · next hk =>
          simp only [castleKOk, Bool.and_eq_true, decide_eq_true_eq] at hk
          obtain ⟨⟨⟨⟨hrt, he1⟩, he2⟩, he3⟩, hna⟩ := hk
          rcases List.mem_singleton.mp h with rfl
          have hne : kingToK c ≠ s := by
            rw [hs]
            cases c <;> decide
          subst hc
          refine ⟨?_, ?_, ⟨pc, by rw [from_sq_mkMove]; exact hb⟩, ?_, ?_, ?_, ?_, ?_, ?_⟩
          · rw [flag_of_mkMove]
            omega
          · rw [from_sq_mkMove, to_sq_mkMove]
            intro he
            exact hne he.symm
          · intro hx
            rw [flag_of_mkMove] at hx
            exact absurd hx (by omega)
          · intro hx
            rw [flag_of_mkMove] at hx
            exact absurd hx (by omega)
          · intro hx
            rw [flag_of_mkMove] at hx
            exact absurd hx (by omega)
          · intro hx
            rw [flag_of_mkMove] at hx
            exact absurd hx (by omega)
          · intro hx
            exact ⟨by rw [from_sq_mkMove, hs], by rw [to_sq_mkMove], he2, he1, he3⟩
          · intro hx
            rw [flag_of_mkMove] at hx
            exact absurd hx (by omega)
        · simp at h
      · split at h
        · next hk =>
          simp only [castleQOk, Bool.and_eq_true, decide_eq_true_eq] at hk
          obtain ⟨⟨⟨⟨⟨hrt, he0⟩, he1⟩, he2⟩, he3⟩, hna⟩ := hk
          rcases List.mem_singleton.mp h with rfl
          have hne : kingToQ c ≠ s := by
            rw [hs]
            cases c <;> decide
          subst hc
          refine ⟨?_, ?_, ⟨pc, by rw [from_sq_mkMove]; exact hb⟩, ?_, ?_, ?_, ?_, ?_, ?_⟩
          · rw [flag_of_mkMove]
            omega
          · rw [from_sq_mkMove, to_sq_mkMove]
            intro he
            exact hne he.symm
          · intro hx
            rw [flag_of_mkMove] at hx
            exact absurd hx (by omega)
          · intro hx
            rw [flag_of_mkMove] at hx
            exact absurd hx (by omega)
          · intro hx
            rw [flag_of_mkMove] at hx
            exact absurd hx (by omega)
          · intro hx
            rw [flag_of_mkMove] at hx
            exact absurd hx (by omega)
          · intro hx
            rw [flag_of_mkMove] at hx
            exact absurd hx (by omega)
          · intro hx
            exact ⟨by rw [from_sq_mkMove, hs], by rw [to_sq_mkMove], he1, he2, he3⟩
        · simp at h
  · simp at h

theorem mem_pieceMoves_facts {p : Position} {s : Square} {pc : Piece} {m : Move}
    (hb : p.board s = some pc) (hc : pc.color = p.sideToMove)
    (h : m ∈ pieceMoves p s pc) : MoveFacts p m := by
  obtain ⟨cc, kk⟩ := pc
  cases kk
  case pawn =>
    exact mem_pawnMoves_facts hb hc h
  case knight =>
    exact stdMoveFacts (mem_stepMoves_std h (by decide)) hb
  case bishop =>
    exact stdMoveFacts (mem_slideMoves_std h (by decide)) hb
  case rook =>
    exact stdMoveFacts (mem_slideMoves_std h (by decide)) hb
  case queen =>
    exact stdMoveFacts (mem_slideMoves_std h (by decide)) hb
  case king =>
    rcases List.mem_append.mp h with h | h
    · exact stdMoveFacts (mem_stepMoves_std h (by decide)) hb
    · exact mem_castleMoves_facts hb hc h

theorem mem_movesFrom_elim {p : Position} {s : Square} {m : Move}
    (h : m ∈ movesFrom p s) :
    ∃ pc, p.board s = some pc ∧ pc.color = p.sideToMove ∧ m ∈ pieceMoves p s pc := by
  unfold movesFrom at h
  split at h
  · next pc heq =>
    split at h
    · next hcl => exact ⟨pc, heq, hcl, h⟩
    · simp at h
  · simp at h

theorem mem_pseudoMoves_facts {p : Position} {m : Move}
    (h : m ∈ pseudoMoves p) : MoveFacts p m := by
  obtain ⟨s, hs, hm⟩ := mem_catMap.mp h
  obtain ⟨pc, hb, hc, hpm⟩ := mem_movesFrom_elim hm
  exact mem_pieceMoves_facts hb hc hpm

theorem mem_generate_facts {p : Position} {m : Move}
    (h : m ∈ generate_moves p) : MoveFacts p m :=
  mem_pseudoMoves_facts (List.mem_filter.mp h).1

theorem Color.other_other (c : Color) : c.other.other = c := by
  cases c <;> rfl

theorem apply_undo_std {p : Position} {m : Move} {pc0 : Piece}
    (hpc : p.board (from_sq m) = some pc0) (hne : from_sq m ≠ to_sq m)
    (h2 : flag_of m ≠ 2) (h3 : flag_of m ≠ 3) (h4 : flag_of m ≠ 4)
    (h5 : ¬ 5 ≤ flag_of m) :
    undo (apply p m).1 m (apply p m).2 = p := by
  refine Position.ext ?_ ?_ ?_ ?_ ?_ ?_ <;>
    simp only [apply, undo, if_neg h2, if_neg h3, if_neg h4, if_neg h5, Color.other_other]
  · funext y
    simp only [bset_apply]
    by_cases hyf : y = from_sq m
    · subst hyf
      simp [Ne.symm hne, hpc]
    · by_cases hyt : y = to_sq m
      · subst hyt
        simp [Ne.symm hne, hyf]
      · simp [hyf, hyt]
  · cases hs : p.sideToMove <;> simp

theorem apply_undo_promo {p : Position} {m : Move}
    (hpromo : p.board (from_sq m) = some ⟨p.sideToMove, .pawn⟩)
    (hne : from_sq m ≠ to_sq m) (h5 : 5 ≤ flag_of m) :
    undo (apply p m).1 m (apply p m).2 = p := by
  have h2 : flag_of m ≠ 2 := by omega
  have h3 : flag_of m ≠ 3 := by omega
  have h4 : flag_of m ≠ 4 := by omega
  refine Position.ext ?_ ?_ ?_ ?_ ?_ ?_ <;>
    simp only [apply, undo, if_neg h2, if_neg h3, if_neg h4, if_pos h5, Color.other_other]
  · funext y
    simp only [bset_apply]
    by_cases hyf : y = from_sq m
    · subst hyf
      simp [Ne.symm hne, hpromo]
    · by_cases hyt : y = to_sq m
      · subst hyt
        simp [Ne.symm hne, hyf]
      · simp [hyf, hyt]
  · cases hs : p.sideToMove <;> simp

theorem apply_undo_ep {p : Position} {m : Move} {pc0 : Piece}
    (hpc : p.board (from_sq m) = some pc0) (hne : from_sq m ≠ to_sq m)
    (hemp : p.board (to_sq m) = none)
    (hcf : epCapSq (from_sq m) (to_sq m) ≠ from_sq m)
    (hct : epCapSq (from_sq m) (to_sq m) ≠ to_sq m)
    (h2 : flag_of m = 2) :
    undo (apply p m).1 m (apply p m).2 = p := by
  have h3 : flag_of m ≠ 3 := by omega
  have h4 : flag_of m ≠ 4 := by omega
  have h5 : ¬ 5 ≤ flag_of m := by omega
  refine Position.ext ?_ ?_ ?_ ?_ ?_ ?_ <;>
    simp only [apply, undo, if_pos h2, if_neg h3, if_neg h4, if_neg h5, Color.other_other]
  · funext y
    simp only [bset_apply]
    by_cases hyf : y = from_sq m
    · subst hyf
      simp [Ne.symm hne, hcf, Ne.symm hcf, hct, Ne.symm hct, hpc]
    · by_cases hyc : y = epCapSq (from_sq m) (to_sq m)
      · subst hyc
        simp [hcf, hct, Ne.symm hcf, Ne.symm hct]
      · by_cases hyt : y = to_sq m
        · subst hyt
          simp [Ne.symm hne, hyf, hct, Ne.symm hct, hemp]
        · simp [hyf, hyt, hyc]
  · cases hs : p.sideToMove <;> simp

theorem apply_undo_castleK {p : Position} {m : Move} {pc0 : Piece}
    (hpc : p.board (from_sq m) = some pc0)
    (hf : from_sq m = kingHome p.sideToMove) (ht : to_sq m = kingToK p.sideToMove)
    (hbt : p.board (kingToK p.sideToMove) = none)
    (hbrt : p.board (rookToK p.sideToMove) = none)
    (hbrf : p.board (rookFromK p.sideToMove) = some ⟨p.sideToMove, .rook⟩)
    (h3 : flag_of m = 3) :
    undo (apply p m).1 m (apply p m).2 = p := by
  have h2 : flag_of m ≠ 2 := by omega
  have h4 : flag_of m ≠ 4 := by omega
  have h5 : ¬ 5 ≤ flag_of m := by omega
  have dAB : kingHome p.sideToMove ≠ kingToK p.sideToMove := by
    cases p.sideToMove <;> decide
  have dAC : kingHome p.sideToMove ≠ rookFromK p.sideToMove := by
    cases p.sideToMove <;> decide
  have dAD : kingHome p.sideToMove ≠ rookToK p.sideToMove := by
    cases p.sideToMove <;> decide
  have dBC : kingToK p.sideToMove ≠ rookFromK p.sideToMove := by
    cases p.sideToMove <;> decide
  have dBD : kingToK p.sideToMove ≠ rookToK p.sideToMove := by
    cases p.sideToMove <;> decide
  have dCD : rookFromK p.sideToMove ≠ rookToK p.sideToMove := by
    cases p.sideToMove <;> decide
  have hpc' : p.board (kingHome p.sideToMove) = some pc0 := by rw [← hf]; exact hpc
  refine Position.ext ?_ ?_ ?_ ?_ ?_ ?_ <;>
    simp only [apply, undo, if_neg h2, if_pos h3, if_neg h4, if_neg h5, Color.other_other]
  · funext y
    rw [hf, ht]
    simp only [bset_apply]
    by_cases hyC : y = rookFromK p.sideToMove
    · subst hyC
      simp [Ne.symm dCD, dCD, hbrf]
    · by_cases hyD : y = rookToK p.sideToMove
      · subst hyD
        simp [dCD, Ne.symm dCD, hbrt]
      · by_cases hyA : y = kingHome p.sideToMove
        · subst hyA
          simp [dAB, dAC, dAD, dBC, dBD, dCD,
            Ne.symm dAB, Ne.symm dAC, Ne.symm dAD, Ne.symm dBC, Ne.symm dBD, Ne.symm dCD,
            hpc']
        · by_cases hyB : y = kingToK p.sideToMove
          · subst hyB
            simp [dAB, dBC, dBD, Ne.symm dAB, Ne.symm dBC, Ne.symm dBD]
          · simp [hyA, hyB, hyC, hyD]
  · cases hs : p.sideToMove <;> simp

theorem apply_undo_castleQ {p : Position} {m : Move} {pc0 : Piece}
    (hpc : p.board (from_sq m) = some pc0)
    (hf : from_sq m = kingHome p.sideToMove) (ht : to_sq m = kingToQ p.sideToMove)
    (hbt : p.board (kingToQ p.sideToMove) = none)
    (hbrt : p.board (rookToQ p.sideToMove) = none)
    (hbrf : p.board (rookFromQ p.sideToMove) = some ⟨p.sideToMove, .rook⟩)
    (h4 : flag_of m = 4) :
    undo (apply p m).1 m (apply p m).2 = p := by
  have h2 : flag_of m ≠ 2 := by omega
  have h3 : flag_of m ≠ 3 := by omega
  have h5 : ¬ 5 ≤ flag_of m := by omega
  have dAB : kingHome p.sideToMove ≠ kingToQ p.sideToMove := by
    cases p.sideToMove <;> decide
  have dAC : kingHome p.sideToMove ≠ rookFromQ p.sideToMove := by
    cases p.sideToMove <;> decide
  have dAD : kingHome p.sideToMove ≠ rookToQ p.sideToMove := by
    cases p.sideToMove <;> decide
  have dBC : kingToQ p.sideToMove ≠ rookFromQ p.sideToMove := by
    cases p.sideToMove <;> decide
  have dBD : kingToQ p.sideToMove ≠ rookToQ p.sideToMove := by
    cases p.sideToMove <;> decide
  have dCD : rookFromQ p.sideToMove ≠ rookToQ p.sideToMove := by
    cases p.sideToMove <;> decide
  have hpc' : p.board (kingHome p.sideToMove) = some pc0 := by rw [← hf]; exact hpc
  refine Position.ext ?_ ?_ ?_ ?_ ?_ ?_ <;>
    simp only [apply, undo, if_neg h2, if_neg h3, if_pos h4, if_neg h5, Color.other_other]
  · funext y
    rw [hf, ht]
    simp only [bset_apply]
    by_cases hyC : y = rookFromQ p.sideToMove
    · subst hyC
      simp [Ne.symm dCD, dCD, hbrf]
    · by_cases hyD : y = rookToQ p.sideToMove
      · subst hyD
        simp [dCD, Ne.symm dCD, hbrt]
      · by_cases hyA : y = kingHome p.sideToMove
        · subst hyA
          simp [dAB, dAC, dAD, dBC, dBD, dCD,
            Ne.symm dAB, Ne.symm dAC, Ne.symm dAD, Ne.symm dBC, Ne.symm dBD, Ne.symm dCD,
            hpc']
        · by_cases hyB : y = kingToQ p.sideToMove
          · subst hyB
            simp [dAB, dBC, dBD, Ne.symm dAB, Ne.symm dBC, Ne.symm dBD]
          · simp [hyA, hyB, hyC, hyD]
  · cases hs : p.sideToMove <;> simp

theorem apply_undo_of_facts {p : Position} {m : Move} (hf : MoveFacts p m) :
    undo (apply p m).1 m (apply p m).2 = p := by
  obtain ⟨hfl8, hne, ⟨pc0, hpc⟩, hpromo, hep0, hepf, hept, hck, hcq⟩ := hf
  by_cases h5 : 5 ≤ flag_of m
  · exact apply_undo_promo (hpromo h5) hne h5
  · by_cases h2 : flag_of m = 2
    · exact apply_undo_ep hpc hne (hep0 h2) (hepf h2) (hept h2) h2
    · by_cases h3 : flag_of m = 3
      · obtain ⟨hc1, hc2, hc3, hc4, hc5⟩ := hck h3
        exact apply_undo_castleK hpc hc1 hc2 hc3 hc4 hc5 h3
      · by_cases h4 : flag_of m = 4
        · obtain ⟨hc1, hc2, hc3, hc4, hc5⟩ := hcq h4
          exact apply_undo_castleQ hpc hc1 hc2 hc3 hc4 hc5 h4
        · exact apply_undo_std hpc hne h2 h3 h4 h5

theorem apply_undo_of_mem {p : Position} {m : Move} (h : m ∈ generate_moves p) :
    undo (apply p m).1 m (apply p m).2 = p :=
  apply_undo_of_facts (mem_generate_facts h)

theorem mem_captureMoves_gen {p : Position} {m : Move} (h : m ∈ captureMoves p) :
    m ∈ generate_moves p := (List.mem_filter.mp h).1

theorem qLoopSt_spec {child : Move → Position → Int × Position} {childP : Move → Int}
    {p : Position} (l : List Move) (h : ∀ mv ∈ l, child mv p = (childP mv, p)) :
    ∀ best, qLoopSt child l best p = (qLoop childP l best, p) := by
  induction l with
  | nil =>
    intro best
    rfl
  | cons mv rest ih =>
    intro best
    have hm := h mv (List.mem_cons_self ..)
    simp only [qLoopSt, qLoop, hm]
    exact ih (fun m2 hm2 => h m2 (List.mem_cons_of_mem _ hm2)) _

theorem qsearchSt_spec : ∀ (fuel : Nat) (p : Position), qsearchSt fuel p = (qsearch fuel p, p) := by
  intro fuel
  induction fuel with
  | zero =>
    intro p
    rfl
  | succ f ih =>
    intro p
    show qLoopSt _ (captureMoves p) (evalPos p) p = _
    rw [qLoopSt_spec (captureMoves p) ?hc (evalPos p)]
    case hc =>
      intro mv hmv
      simp only [ih, applyM]
      rw [apply_undo_of_mem (mem_captureMoves_gen hmv)]
    rfl

theorem leafValSt_spec (cfg : SearchConfig) (p : Position) :
    leafValSt cfg p = (leafVal cfg p, p) := by
  cases cfg
  · exact qsearchSt_spec _ _
  · rfl

theorem abLoopSt_spec {child : Move → Int → Position → Int × Position}
    {childP : Move → Int → Int} {bound : Int} {p : Position} (l : List Move)
    (h : ∀ mv ∈ l, ∀ a, child mv a p = (childP mv a, p)) :
    ∀ best a, abLoopSt child bound l best a p = (abLoop childP bound l best a, p) := by
  induction l with
  | nil =>
    intro best a
    rfl
  | cons mv rest ih =>
    intro best a
    have hm := h mv (List.mem_cons_self ..) a
    simp only [abLoopSt, abLoop, hm]
    by_cases hb : bound ≤ max best (childP mv a)
    · rw [if_pos hb, if_pos hb]
    · rw [if_neg hb, if_neg hb]
      exact ih (fun m2 hm2 => h m2 (List.mem_cons_of_mem _ hm2)) _ _

theorem abSearchSt_spec (cfg : SearchConfig) :
    ∀ (d : Nat) (p : Position) (ply : Nat) (a bound : Int),
      abSearchSt cfg d p ply a bound = (abSearch cfg d p ply a bound, p) := by
  intro d
  induction d with
  | zero =>
    intro p ply a bound
    simp only [abSearchSt, abSearch]
    by_cases hE : (generate_moves p).isEmpty
    · rw [if_pos hE, if_pos hE]
    · rw [if_neg hE, if_neg hE]
      by_cases hH : 100 ≤ p.halfmove
      · rw [if_pos hH, if_pos hH]
      · rw [if_neg hH, if_neg hH]
        exact leafValSt_spec cfg p
  | succ d ih =>
    intro p ply a bound
    simp only [abSearchSt, abSearch]
    rcases hg : generate_moves p with _ | ⟨mv, rest⟩
    · simp only [hg]
    · simp only [hg]
      by_cases hH : 100 ≤ p.halfmove
      · rw [if_pos hH, if_pos hH]
      · rw [if_neg hH, if_neg hH]
        by_cases hP : MAX_PLY ≤ ply
        · rw [if_pos hP, if_pos hP]
          exact leafValSt_spec cfg p
        · rw [if_neg hP, if_neg hP]
          simp only [ih, applyM]
          rw [apply_undo_of_mem
            (show mv ∈ generate_moves p by rw [hg]; exact List.mem_cons_self ..)]
          refine abLoopSt_spec rest ?_ _ _
          intro m2 hm2 a2
          dsimp only
          rw [apply_undo_of_mem
            (show m2 ∈ generate_moves p by rw [hg]; exact List.mem_cons_of_mem _ hm2)]

theorem foldl_rootStepSt_spec (cfg : SearchConfig) (d : Nat) {p : Position}
    (l : List Move) (hl : ∀ mv ∈ l, mv ∈ generate_moves p) :
    ∀ acc : Move × Int,
      l.foldl (rootStepSt cfg d) (acc, p) = (l.foldl (rootStep cfg p d) acc, p) := by
  induction l with
  | nil =>
    intro acc
    rfl
  | cons mv rest ih =>
    intro acc
    have hstep : rootStepSt cfg d (acc, p) mv = (rootStep cfg p d acc mv, p) := by
      simp only [rootStepSt, rootStep, rootScore, abSearchSt_spec, applyM]
      rw [apply_undo_of_mem (hl mv (List.mem_cons_self ..))]
      by_cases hlt : acc.2 < -(abSearch cfg d (ChessAI.apply p mv).1 1 (-(MATE + 1)) (-acc.2))
      · rw [if_pos hlt, if_pos hlt]
      · rw [if_neg hlt, if_neg hlt]
    show List.foldl (rootStepSt cfg d) (rootStepSt cfg d (acc, p) mv) rest = _
    rw [hstep]
    exact ih (fun m2 hm2 => hl m2 (List.mem_cons_of_mem _ hm2)) _

theorem bestAtDepthSt_spec (cfg : SearchConfig) (p : Position) (dep : Nat) :
    bestAtDepthSt cfg p dep = (bestAtDepth cfg p dep, p) := by
  simp only [bestAtDepthSt, bestAtDepth]
  rcases hg : generate_moves p with _ | ⟨mv, rest⟩
  · simp only [hg]
  · simp only [hg, abSearchSt_spec]
    have hu : undo (ChessAI.apply p mv).1 mv (ChessAI.apply p mv).2 = p :=
      apply_undo_of_mem (by rw [hg]; exact List.mem_cons_self ..)
    rw [hu]
    have := foldl_rootStepSt_spec cfg (dep - 1) (p := p) rest
      (fun m2 hm2 => by rw [hg]; exact List.mem_cons_of_mem _ hm2)
      (mv, -(abSearch cfg (dep - 1) (ChessAI.apply p mv).1 1 (-(MATE + 1)) (MATE + 1)))
    simpa [rootScore, applyM] using this

theorem searchSt_spec (p : Position) (params : SearchParams) :
    searchSt p params = (search p params, p) := by
  simp only [searchSt, search]
  rcases hg : generate_moves p with _ | ⟨mv, rest⟩
  · simp only [hg]
  · have hfold : ∀ (l : List Nat) (acc : Move × Int),
        l.foldl (fun a d => bestAtDepthSt params.config a.2 (d + 1)) (acc, p) =
          (l.foldl (fun _ d => bestAtDepth params.config p (d + 1)) acc, p) := by
      intro l
      induction l with
      | nil =>
        intro acc
        rfl
      | cons x xs ih =>
        intro acc
        show List.foldl _ (bestAtDepthSt params.config p (x + 1)) xs = _
        rw [bestAtDepthSt_spec]
        exact ih _
    simp only [hg]
    rw [hfold]

theorem abs_max_le {a b c : Int} (ha : |a| ≤ c) (hb : |b| ≤ c) : |max a b| ≤ c :=
  abs_le.mpr
    ⟨le_trans (abs_le.mp ha).1 (le_max_left a b),
     max_le (abs_le.mp ha).2 (abs_le.mp hb).2⟩

theorem map_sum_bounds {α : Type} {f : α → Int} {c : Int} :
    ∀ (l : List α), (∀ x ∈ l, 0 ≤ f x ∧ f x ≤ c) →
      0 ≤ (l.map f).sum ∧ (l.map f).sum ≤ c * (l.length : Int) := by
  intro l
  induction l with
  | nil =>
    intro h
    simp
  | cons x xs ih =>
    intro h
    have hx := h x (List.mem_cons_self ..)
    have hxs := ih fun y hy => h y (List.mem_cons_of_mem _ hy)
    simp only [List.map_cons, List.sum_cons, List.length_cons]
    have hexp : c * ((xs.length : Int) + 1) = c * (xs.length : Int) + c := by ring
    push_cast
    rw [hexp]
    constructor
    · linarith [hx.1, hxs.1]
    · linarith [hx.2, hxs.2]

theorem pieceVal_bounds (k : PieceType) : 0 ≤ pieceVal k ∧ pieceVal k ≤ 900 := by
  cases k <;> exact ⟨by decide, by decide⟩

theorem sideVal_bounds (b : Board) (c : Color) : 0 ≤ sideVal b c ∧ sideVal b c ≤ 57600 := by
  unfold sideVal
  have h := map_sum_bounds (c := 900)
    (f := fun s =>
      match b s with
      | some pc => if pc.color = c then pieceVal pc.kind else 0
      | none => 0)
    (List.finRange 64) ?_
  · rw [List.length_finRange] at h
    exact ⟨h.1, le_trans h.2 (by norm_num)⟩
  · intro s hs
    rcases hb : b s with _ | pc
    · simp only [hb]
      exact ⟨le_refl 0, by norm_num⟩
    · by_cases hc : pc.color = c
      · simp only [hb, if_pos hc]
        exact pieceVal_bounds pc.kind
      · simp only [hb, if_neg hc]
        exact ⟨le_refl 0, by norm_num⟩

theorem evalPos_abs_le (p : Position) : |evalPos p| ≤ 57600 := by
  unfold evalPos
  have h1 := sideVal_bounds p.board p.sideToMove
  have h2 := sideVal_bounds p.board (Color.other p.sideToMove)
  rw [abs_le]
  constructor <;> linarith [h1.1, h1.2, h2.1, h2.2]

theorem qLoop_abs_le {child : Move → Int} {E : Int} (hE : ∀ mv, |child mv| ≤ E) :
    ∀ (l : List Move) (best : Int), |best| ≤ E → |qLoop child l best| ≤ E := by
  intro l
  induction l with
  | nil =>
    intro best hb
    exact hb
  | cons mv rest ih =>
    intro best hb
    exact ih _ (abs_max_le hb (hE mv))

theorem qsearch_abs_le : ∀ (fuel : Nat) (p : Position), |qsearch fuel p| ≤ 57600 := by
  intro fuel
  induction fuel with
  | zero =>
    intro p
    exact evalPos_abs_le p
  | succ f ih =>
    intro p
    refine qLoop_abs_le ?_ _ _ (evalPos_abs_le p)
    intro mv
    rw [abs_neg]
    exact ih _

theorem leafVal_abs_le (cfg : SearchConfig) (p : Position) : |leafVal cfg p| ≤ 57600 := by
  cases cfg
  · exact qsearch_abs_le _ _
  · exact evalPos_abs_le p

theorem terminalScore_abs_le {p : Position} {ply : Nat} (hp : ply ≤ MAX_PLY) :
    |terminalScore p ply| ≤ MATE - ply := by
  have hM : MATE = 1000000 := rfl
  have hP : MAX_PLY = 512 := rfl
  rw [hP] at hp
  unfold terminalScore
  split
  · rw [abs_neg, abs_of_nonneg (by rw [hM]; push_cast; omega)]
  · rw [abs_zero, hM]
    push_cast
    omega

theorem abLoop_abs_le {child : Move → Int → Int} {bound C : Int}
    (hc : ∀ mv a, |child mv a| ≤ C) :
    ∀ (l : List Move) (best a : Int), |best| ≤ C → |abLoop child bound l best a| ≤ C := by
  intro l
  induction l with
  | nil =>
    intro best a hb
    exact hb
  | cons mv rest ih =>
    intro best a hb
    simp only [abLoop]
    split
    · exact abs_max_le hb (hc mv a)
    · exact ih _ _ (abs_max_le hb (hc mv a))

theorem abSearch_abs_le (cfg : SearchConfig) :
    ∀ (d : Nat) (p : Position) (ply : Nat) (a bound : Int), ply ≤ MAX_PLY →
      |abSearch cfg d p ply a bound| ≤ MATE - ply := by
  have hM : MATE = 1000000 := rfl
  have hP : MAX_PLY = 512 := rfl
  intro d
  induction d with
  | zero =>
    intro p ply a bound hp
    simp only [abSearch]
    split
    · exact terminalScore_abs_le hp
    · split
      · rw [abs_zero, hM]
        rw [hP] at hp
        push_cast
        omega
      · refine le_trans (leafVal_abs_le cfg p) ?_
        rw [hM]
        rw [hP] at hp
        push_cast
        omega
  | succ d ih =>
    intro p ply a bound hp
    simp only [abSearch]
    split
    · exact terminalScore_abs_le hp
    · split
      · rw [abs_zero, hM]
        rw [hP] at hp
        push_cast
        omega
      · split
        · refine le_trans (leafVal_abs_le cfg p) ?_
          rw [hM]
          rw [hP] at hp
          push_cast
          omega
        · next hplt =>
          have hstep : ∀ (mv2 : Move) (a2 : Int),
              |(-(abSearch cfg d (applyM p mv2) (ply + 1) (-bound) (-a2)) : Int)| ≤
                MATE - ply := by
            intro mv2 a2
            rw [abs_neg]
            refine le_trans (ih (applyM p mv2) (ply + 1) (-bound) (-a2) (by omega)) ?_
            push_cast
            omega
          exact abLoop_abs_le hstep _ _ _ (hstep _ _)

theorem abSearch_terminal (cfg : SearchConfig) (d : Nat) (p : Position) (ply : Nat)
    (a bound : Int) (hg : generate_moves p = []) :
    abSearch cfg d p ply a bound = terminalScore p ply := by
  cases d <;> simp [abSearch, hg]

theorem rootScore_mate (cfg : SearchConfig) (d : Nat) {p : Position} {m : Move}
    (h : deliversMate p m) (a : Int) : rootScore cfg p d a m = MATE - 1 := by
  unfold rootScore
  rw [abSearch_terminal cfg d _ 1 _ _ h.1]
  unfold terminalScore
  rw [if_pos h.2]
  simp

theorem rootScore_lt (cfg : SearchConfig) (d : Nat) {p : Position} {m : Move}
    (h : ¬ deliversMate p m) (a : Int) : rootScore cfg p d a m < MATE - 1 := by
  have hM : MATE = 1000000 := rfl
  unfold rootScore
  rcases hq : generate_moves (applyM p m) with _ | ⟨mv, rest⟩
  · rw [abSearch_terminal cfg d _ 1 _ _ hq]
    unfold terminalScore
    have hic : inCheck (applyM p m) = false := by
      cases hic : inCheck (applyM p m)
      · rfl
      · exact absurd ⟨hq, hic⟩ h
    rw [if_neg (by simp [hic])]
    rw [hM]
    norm_num
  · have key : ∀ (child : Move → Int → Int) (bnd : Int) (l : List Move) (v0 a0 : Int),
        (∀ mv2 a2, |child mv2 a2| ≤ MATE - 2) → |v0| ≤ MATE - 2 →
        -(abLoop child bnd l v0 a0) < MATE - 1 := by
      intro child bnd l v0 a0 hc hv
      have hb := @abLoop_abs_le child bnd (MATE - 2) hc l v0 a0 hv
      have h1 := (abs_le.mp hb).1
      linarith
    cases d with
    | zero =>
      simp only [abSearch]
      rw [if_neg (by simp [hq])]
      split
      · rw [hM]
        norm_num
      · have hl := leafVal_abs_le cfg (applyM p m)
        have h1 := (abs_le.mp hl).1
        rw [hM]
        linarith
    | succ k =>
      simp only [abSearch, hq]
      split
      · rw [hM]
        norm_num
      · split
        · next hmp =>
          exact absurd hmp (by decide)
        · apply key
          · intro mv2 a2
            rw [abs_neg]
            have hb := abSearch_abs_le cfg k (applyM (applyM p m) mv2) (1 + 1)
              (-(-a)) (-a2) (by decide)
            refine le_trans (abSearch_abs_le cfg k _ (1 + 1) _ _ (by decide)) ?_
            push_cast
            omega
          · rw [abs_neg]
            refine le_trans (abSearch_abs_le cfg k _ (1 + 1) _ _ (by decide)) ?_
            push_cast
            omega

theorem foldl_rootStep_sc_mono (cfg : SearchConfig) (p : Position) (d : Nat) :
    ∀ (l : List Move) (acc : Move × Int), acc.2 ≤ (l.foldl (rootStep cfg p d) acc).2 := by
  intro l
  induction l with
  | nil =>
    intro acc
    exact le_refl _
  | cons mv rest ih =>
    intro acc
    rw [List.foldl_cons]
    refine le_trans ?_ (ih (rootStep cfg p d acc mv))
    unfold rootStep
    dsimp only
    split
    · next hlt => exact le_of_lt hlt
    · exact le_refl _

theorem foldl_rootStep_mem (cfg : SearchConfig) (p : Position) (d : Nat) :
    ∀ (l : List Move) (acc : Move × Int),
      (l.foldl (rootStep cfg p d) acc).1 = acc.1 ∨ (l.foldl (rootStep cfg p d) acc).1 ∈ l := by
  intro l
  induction l with
  | nil =>
    intro acc
    exact Or.inl rfl
  | cons mv rest ih =>
    intro acc
    rw [List.foldl_cons]
    rcases ih (rootStep cfg p d acc mv) with h | h
    · rw [h]
      unfold rootStep
      dsimp only
      split
      · exact Or.inr (List.mem_cons_self ..)
      · exact Or.inl rfl
    · exact Or.inr (List.mem_cons_of_mem _ h)

theorem foldl_rootStep_mate (cfg : SearchConfig) (p : Position) (d : Nat) {mstar : Move}
    (hm : deliversMate p mstar) :
    ∀ (l : List Move) (acc : Move × Int), mstar ∈ l →
      MATE - 1 ≤ (l.foldl (rootStep cfg p d) acc).2 := by
  intro l
  induction l with
  | nil =>
    intro acc h
    simp at h
  | cons mv rest ih =>
    intro acc h
    rw [List.foldl_cons]
    rcases List.mem_cons.mp h with he | he
    · subst he
      refine le_trans ?_ (foldl_rootStep_sc_mono cfg p d rest _)
      unfold rootStep
      dsimp only
      rw [rootScore_mate cfg d hm acc.2]
      split
      · exact le_refl _
      · next hnl => exact le_of_not_lt hnl
    · exact ih _ he

theorem foldl_rootStep_carrier (cfg : SearchConfig) (p : Position) (d : Nat) :
    ∀ (l : List Move) (acc : Move × Int),
      (MATE - 1 ≤ acc.2 → deliversMate p acc.1) →
      MATE - 1 ≤ (l.foldl (rootStep cfg p d) acc).2 →
      deliversMate p (l.foldl (rootStep cfg p d) acc).1 := by
  intro l
  induction l with
  | nil =>
    intro acc hinv hsc
    exact hinv hsc
  | cons mv rest ih =>
    intro acc hinv hsc
    rw [List.foldl_cons] at hsc ⊢
    refine ih _ ?_ hsc
    unfold rootStep
    dsimp only
    split
    · intro hge
      by_cases hdm : deliversMate p mv
      · exact hdm
      · exact absurd hge (not_le.mpr (rootScore_lt cfg d hdm acc.2))
    · exact hinv

theorem range_foldl_const {g : Nat → Move × Int} :
    ∀ (n : Nat) (init : Move × Int),
      (List.range (n + 1)).foldl (fun _ d => g (d + 1)) init = g (n + 1) := by
  intro n
  induction n with
  | zero =>
    intro init
    rfl
  | succ k ih =>
    intro init
    rw [List.range_succ, List.foldl_append, ih]
    rfl

theorem search_eq_bestAtDepth {p : Position} {params : SearchParams} {mv : Move}
    {rest : List Move} (hg : generate_moves p = mv :: rest) (hd : 1 ≤ params.max_depth) :
    search p params = (bestAtDepth params.config p params.max_depth).1 := by
  unfold search
  simp only [hg]
  obtain ⟨k, hk⟩ : ∃ k, params.max_depth = k + 1 := ⟨params.max_depth - 1, by omega⟩
  rw [hk]
  rw [range_foldl_const (g := fun dd => bestAtDepth params.config p dd) k (mv, -(MATE + 1))]

theorem bestAtDepth_mem {cfg : SearchConfig} {p : Position} {dep : Nat} {mv : Move}
    {rest : List Move} (hg : generate_moves p = mv :: rest) :
    (bestAtDepth cfg p dep).1 ∈ generate_moves p := by
  unfold bestAtDepth
  simp only [hg]
  rcases foldl_rootStep_mem cfg p (dep - 1) rest
      (mv, rootScore cfg p (dep - 1) (-(MATE + 1)) mv) with h | h
  · rw [h]
    exact List.mem_cons_self ..
  · exact List.mem_cons_of_mem _ h

theorem gen_ne_null {p : Position} {m : Move} (h : m ∈ generate_moves p) : m ≠ NULL_MOVE := by
  have hf := (mem_generate_facts h).ne_ft
  intro he
  subst he
  exact hf (by decide)

theorem countBM_append :
    ∀ (l1 l2 : List Output), countBM (l1 ++ l2) = countBM l1 + countBM l2 := by
  intro l1 l2
  induction l1 with
  | nil => simp [countBM]
  | cons o rest ih => cases o <;> simp [countBM, ih] <;> omega

theorem handle_command_no_bestmove (st : EngineState) (l : String) :
    countBM (handle_command st l).2 = 0 := by
  unfold handle_command
  split
  · rfl
  · split <;> first | rfl | (split <;> rfl)

theorem workerTick_complete (pos : Position) (f : Nat) (i : Bool) (b : Move) :
    workerTick ⟨pos, .searching f true i b, false⟩ =
      (⟨pos, .searchComplete, false⟩, [Output.bestmove b]) := rfl

theorem handle_cancelSearching_state (pos : Position) (f : Nat) (i : Bool) (b : Move)
    (l : String) (hs : isStart l = false) (hq : isQuit l = false) :
    (handle_command ⟨pos, .searching f true i b, false⟩ l).1 =
      ⟨pos, .searching f true i b, false⟩ := by
  unfold isStart at hs
  unfold isQuit at hq
  unfold handle_command
  rw [if_neg (by simp)]
  cases hc : parseCommand l <;> rw [hc] at hs hq <;> simp_all

theorem handle_preserves_nosearch (st : EngineState) (l : String)
    (h1 : isSearchingMode st.mode = false) (hs : isStart l = false) :
    isSearchingMode (handle_command st l).1.mode = false := by
  unfold isStart at hs
  unfold handle_command
  split
  · exact h1
  · cases hc : parseCommand l <;> rw [hc] at hs <;> simp only [hc]
    · exact h1
    · exact h1
    · split
      · next f c i b heq =>
        rw [heq] at h1
        simp [isSearchingMode] at h1
      · rfl
    · simp at hs
    · split
      · next f c i b heq =>
        rw [heq] at h1
        simp [isSearchingMode] at h1
      · exact h1
    · exact h1
    · exact h1

theorem runS_nosearch (evs : List Ev) :
    ∀ (st : EngineState), isSearchingMode st.mode = false →
      (∀ l, Ev.input l ∈ evs → isStart l = false) →
      countBM (runS st evs).2 = 0 := by
  induction evs with
  | nil =>
    intro st h1 h2
    rfl
  | cons e rest ih =>
    intro st h1 h2
    unfold runS
    dsimp only
    rw [countBM_append]
    cases e with
    | tick =>
      have ht : workerTick st = (st, []) := by
        unfold workerTick
        split
        · rfl
        · split
          · next f c i b heq =>
            rw [heq] at h1
            simp [isSearchingMode] at h1
          · rfl
      have hstep : stepS st Ev.tick = (st, []) := ht
      rw [hstep]
      simpa [countBM] using ih st h1 fun l hl => h2 l (List.mem_cons_of_mem _ hl)
    | input l =>
      have hstep : stepS st (Ev.input l) = handle_command st l := rfl
      rw [hstep, handle_command_no_bestmove]
      have hpre := handle_preserves_nosearch st l h1 (h2 l (List.mem_cons_self ..))
      simpa using ih _ hpre fun l2 hl2 => h2 l2 (List.mem_cons_of_mem _ hl2)

theorem runS_cancel_count (pos : Position) (f : Nat) (i : Bool) (b : Move) :
    ∀ (evs : List Ev),
      (∀ l, Ev.input l ∈ evs → isStart l = false ∧ isQuit l = false) →
      countBM (runS ⟨pos, .searching f true i b, false⟩ evs).2 =
        (if Ev.tick ∈ evs then 1 else 0) := by
  intro evs
  induction evs with
  | nil =>
    intro h
    rfl
  | cons e rest ih =>
    intro h
    unfold runS
    dsimp only
    rw [countBM_append]
    cases e with
    | tick =>
      have hstep : stepS ⟨pos, .searching f true i b, false⟩ Ev.tick =
          (⟨pos, .searchComplete, false⟩, [Output.bestmove b]) := workerTick_complete ..
      rw [hstep]
      have hz := runS_nosearch rest ⟨pos, .searchComplete, false⟩ rfl
        fun l hl => (h l (List.mem_cons_of_mem _ hl)).1
      rw [if_pos (List.mem_cons_self ..)]
      simp [countBM, hz]
    | input l =>
      have hl := h l (List.mem_cons_self ..)
      have hstep : stepS ⟨pos, .searching f true i b, false⟩ (Ev.input l) =
          handle_command ⟨pos, .searching f true i b, false⟩ l := rfl
      rw [hstep, handle_command_no_bestmove,
        handle_cancelSearching_state pos f i b l hl.1 hl.2]
      rw [ih fun l2 hl2 => h l2 (List.mem_cons_of_mem _ hl2)]
      by_cases hm : Ev.tick ∈ rest
      · rw [if_pos hm, if_pos (List.mem_cons_of_mem _ hm)]
      · have hnot : Ev.tick ∉ Ev.input l :: rest := by
          intro hx
          rcases List.mem_cons.mp hx with h1 | h1
          · simp at h1
          · exact hm h1
        rw [if_neg hm, if_neg hnot]

theorem catMap_length_le {α β : Type} {f : α → List β} {c : Nat} :
    ∀ (l : List α), (∀ a ∈ l, (f a).length ≤ c) → (catMap f l).length ≤ c * l.length := by
  intro l
  induction l with
  | nil =>
    intro h
    simp [catMap]
  | cons x xs ih =>
    intro h
    simp only [catMap, List.length_append, List.length_cons]
    have h1 := h x (List.mem_cons_self ..)
    have h2 := ih fun a ha => h a (List.mem_cons_of_mem _ ha)
    have h3 : c * (xs.length + 1) = c * xs.length + c := by ring
    omega

theorem rayMoves_length_le (b : Board) (c : Color) (s : Square) (dr df : Int) :
    ∀ (n : Nat) (r f : Int), (rayMoves b c s dr df n r f).length ≤ n := by
  intro n
  induction n with
  | zero =>
    intro r f
    simp [rayMoves]
  | succ k ih =>
    intro r f
    unfold rayMoves
    split
    · simp
    · split
      · simp only [List.length_cons]
        exact Nat.succ_le_succ (ih _ _)
      · split
        · simp
        · simp

theorem slideMoves_length_le (b : Board) (c : Color) (s : Square)
    (dirs : List (Int × Int)) : (slideMoves b c s dirs).length ≤ 7 * dirs.length := by
  unfold slideMoves
  exact catMap_length_le dirs fun d hd => rayMoves_length_le b c s d.1 d.2 7 _ _

theorem castleMoves_length_le (p : Position) (c : Color) (s : Square) :
    (castleMoves p c s).length ≤ 2 := by
  unfold castleMoves
  split
  · split
    · simp
    · rw [List.length_append]
      have h1 : (if castleKOk p c = true then [mkMove s (kingToK c) 3] else []).length ≤ 1 := by
        split <;> simp
      have h2 : (if castleQOk p c = true then [mkMove s (kingToQ c) 4] else []).length ≤ 1 := by
        split <;> simp
      omega
  · simp

theorem pawnMoves_length_le (p : Position) (c : Color) (s : Square) :
    (pawnMoves p c s).length ≤ 13 := by
  unfold pawnMoves
  rw [List.length_append]
  refine le_trans (Nat.add_le_add ?_ ?_) (show 5 + 8 ≤ 13 by norm_num)
  · split
    · simp
    · split
      · simp
      · rw [List.length_append]
        refine le_trans (Nat.add_le_add ?_ ?_) (show 4 + 1 ≤ 5 by norm_num)
        · split
          · simp [promoFlags]
          · simp
        · split
          · split
            · split
              · simp
              · simp
            · simp
          · simp
  · refine le_trans (catMap_length_le (c := 4) _ ?_) (by norm_num)
    intro cf hcf
    split
    · simp
    · split
      · split
        · simp
        · split
          · simp [promoFlags]
          · simp
      · split
        · simp
        · simp

theorem pieceMoves_length_le (p : Position) (s : Square) (pc : Piece) :
    (pieceMoves p s pc).length ≤ 56 := by
  obtain ⟨cc, kk⟩ := pc
  cases kk
  case pawn =>
    exact le_trans (pawnMoves_length_le ..) (by norm_num)
  case knight =>
    refine le_trans (List.length_filterMap_le ..) ?_
    norm_num [knightOffs]
  case bishop =>
    refine le_trans (slideMoves_length_le ..) ?_
    norm_num [bishopDirs]
  case rook =>
    refine le_trans (slideMoves_length_le ..) ?_
    norm_num [rookDirs]
  case queen =>
    refine le_trans (slideMoves_length_le ..) ?_
    norm_num [rookDirs, bishopDirs]
  case king =>
    show (stepMoves p.board cc s kingOffs ++ castleMoves p cc s).length ≤ 56
    rw [List.length_append]
    have h1 : (stepMoves p.board cc s kingOffs).length ≤ 8 := by
      refine le_trans (List.length_filterMap_le ..) ?_
      norm_num [kingOffs]
    have h2 := castleMoves_length_le p cc s
    omega

theorem movesFrom_length_le (p : Position) (s : Square) :
    (movesFrom p s).length ≤ 56 := by
  unfold movesFrom
  split
  · split
    · exact pieceMoves_length_le ..
    · simp
  · simp

theorem generate_moves_length_le (p : Position) :
    (generate_moves p).length ≤ BRANCH := by
  refine le_trans (List.length_filter_le ..) ?_
  refine le_trans (catMap_length_le (c := 56) _ fun s hs => movesFrom_length_le p s) ?_
  rw [List.length_finRange]
  norm_num [BRANCH]

theorem map_sum_le_nat {α : Type} {f : α → Nat} {c : Nat} :
    ∀ (l : List α), (∀ x ∈ l, f x ≤ c) → (l.map f).sum ≤ l.length * c := by
  intro l
  induction l with
  | nil =>
    intro h
    simp
  | cons x xs ih =>
    intro h
    simp only [List.map_cons, List.sum_cons, List.length_cons]
    have h1 := h x (List.mem_cons_self ..)
    have h2 := ih fun y hy => h y (List.mem_cons_of_mem _ hy)
    have h3 : (xs.length + 1) * c = xs.length * c + c := by ring
    omega

theorem qNodes_le : ∀ (fuel : Nat) (p : Position), qNodes fuel p ≤ qNodeBound fuel := by
  intro fuel
  induction fuel with
  | zero =>
    intro p
    exact le_refl 1
  | succ f ih =>
    intro p
    show 1 + _ ≤ 1 + BRANCH * qNodeBound f
    have hsum := map_sum_le_nat (c := qNodeBound f) (captureMoves p)
      fun mv hmv => ih (applyM p mv)
    have hlen : (captureMoves p).length ≤ BRANCH :=
      le_trans (List.length_filter_le ..) (generate_moves_length_le p)
    have hmul := Nat.mul_le_mul_right (qNodeBound f) hlen
    omega

theorem qNodeBound_pos : ∀ (f : Nat), 1 ≤ qNodeBound f := by
  intro f
  cases f
  · exact le_refl 1
  · show 1 ≤ 1 + _
    omega

theorem qNodeBound_mono : ∀ {d e : Nat}, d ≤ e → qNodeBound d ≤ qNodeBound e := by
  intro d e h
  induction e with
  | zero =>
    have : d = 0 := by omega
    subst this
    exact le_refl _
  | succ k ih =>
    rcases Nat.lt_or_ge d (k + 1) with h1 | h2
    · have hk := ih (by omega)
      have hq := qNodeBound_pos k
      have hmul : 1 * qNodeBound k ≤ BRANCH * qNodeBound k :=
        Nat.mul_le_mul_right _ (by norm_num [BRANCH])
      show qNodeBound d ≤ 1 + BRANCH * qNodeBound k
      omega
    · have : d = k + 1 := by omega
      subst this
      exact le_refl _

theorem pieceCount_le (p : Position) : pieceCount p ≤ 64 := by
  unfold pieceCount
  refine le_trans (List.length_filter_le ..) ?_
  rw [List.length_finRange]

theorem leafNodes_le (cfg : SearchConfig) (p : Position) :
    leafNodes cfg p ≤ qNodeBound 64 := by
  cases cfg
  · exact le_trans (qNodes_le _ p) (qNodeBound_mono (pieceCount_le p))
  · exact qNodeBound_pos 64

theorem abNodes_le (cfg : SearchConfig) :
    ∀ (d : Nat) (p : Position), abNodes cfg d p ≤ abNodeBound d := by
  intro d
  induction d with
  | zero =>
    intro p
    show 1 + leafNodes cfg p ≤ 1 + qNodeBound 64
    have := leafNodes_le cfg p
    omega
  | succ k ih =>
    intro p
    show 1 + leafNodes cfg p + _ ≤ 1 + qNodeBound 64 + BRANCH * abNodeBound k
    have hleaf := leafNodes_le cfg p
    have hsum := map_sum_le_nat (c := abNodeBound k) (generate_moves p)
      fun mv hmv => ih (applyM p mv)
    have hlen := generate_moves_length_le p
    have hmul := Nat.mul_le_mul_right (abNodeBound k) hlen
    omega

theorem abNodeBound_mono : ∀ {d e : Nat}, d ≤ e → abNodeBound d ≤ abNodeBound e := by
  intro d e h
  induction e with
  | zero =>
    have : d = 0 := by omega
    subst this
    exact le_refl _
  | succ k ih =>
    rcases Nat.lt_or_ge d (k + 1) with h1 | h2
    · have hk := ih (by omega)
      have hpos : 1 ≤ abNodeBound k := by
        cases k
        · show 1 ≤ 1 + _
          omega
        · show 1 ≤ 1 + _ + _
          omega
      have hmul : 1 * abNodeBound k ≤ BRANCH * abNodeBound k :=
        Nat.mul_le_mul_right _ (by norm_num [BRANCH])
      show abNodeBound d ≤ 1 + qNodeBound 64 + BRANCH * abNodeBound k
      omega
    · have : d = k + 1 := by omega
      subst this
      exact le_refl _

theorem searchNodes_le (p : Position) (params : SearchParams) :
    searchNodes p params ≤ searchNodeBound params.max_depth := by
  unfold searchNodes searchNodeBound
  refine le_trans (map_sum_le_nat (c := 1 + BRANCH * abNodeBound params.max_depth)
    (List.range params.max_depth) ?_) ?_
  · intro d hd
    have hd2 : d ≤ params.max_depth := le_of_lt (List.mem_range.mp hd)
    have hsum := map_sum_le_nat (c := abNodeBound params.max_depth) (generate_moves p)
      fun mv hmv =>
        le_trans (abNodes_le params.config d (applyM p mv)) (abNodeBound_mono hd2)
    have hlen := generate_moves_length_le p
    have hmul := Nat.mul_le_mul_right (abNodeBound params.max_depth) hlen
    omega
  · rw [List.length_range]

/-- C1: for every Position and SearchParams with max_depth ≥ 1, `search`
returns the null-move sentinel exactly on a root with zero legal moves;
on any other root it returns a member of the legal-move list, and the
sentinel is never returned in that case. -/
theorem c1_search_return_policy (P : Position) (params : SearchParams)
    (h : 1 ≤ params.max_depth) :
    (generate_moves P = [] → search P params = NULL_MOVE) ∧
    (generate_moves P ≠ [] →
      search P params ∈ generate_moves P ∧ search P params ≠ NULL_MOVE) := by
  constructor
  · intro hg
    unfold search
    simp only [hg]
  · intro hne
    rcases hg : generate_moves P with _ | ⟨mv, rest⟩
    · exact absurd hg hne
    · rw [search_eq_bestAtDepth hg h]
      have hm := @bestAtDepth_mem params.config P params.max_depth mv rest hg
      refine ⟨?_, gen_ne_null hm⟩
      rw [← hg]
      exact hm

theorem c1_search_return_policy_witness :
    1 ≤ (⟨3, SearchConfig.FULL⟩ : SearchParams).max_depth ∧
    ((generate_moves startPosition = [] →
        search startPosition ⟨3, SearchConfig.FULL⟩ = NULL_MOVE) ∧
      (generate_moves startPosition ≠ [] →
        search startPosition ⟨3, SearchConfig.FULL⟩ ∈ generate_moves startPosition ∧
        search startPosition ⟨3, SearchConfig.FULL⟩ ≠ NULL_MOVE)) :=
  ⟨by decide, c1_search_return_policy startPosition ⟨3, SearchConfig.FULL⟩ (by decide)⟩

/-- C2: applying a legal move and undoing it with the apply-time journal
restores the original Position bit for bit — board, side to move, castling
rights, en-passant target, halfmove clock and fullmove counter. -/
theorem c2_apply_undo_roundtrip (P : Position) (m : Move) (h : m ∈ generate_moves P) :
    undo (apply P m).1 m (apply P m).2 = P :=
  apply_undo_of_mem h

theorem c2_apply_undo_roundtrip_witness :
    mkMove (sq 12) (sq 28) 1 ∈ generate_moves startPosition ∧
    undo (apply startPosition (mkMove (sq 12) (sq 28) 1)).1 (mkMove (sq 12) (sq 28) 1)
      (apply startPosition (mkMove (sq 12) (sq 28) 1)).2 = startPosition :=
  ⟨by decide, c2_apply_undo_roundtrip _ _ (by decide)⟩

/-- C3: legal move generation on the standard starting Position yields
exactly 20 moves. -/
theorem c3_start_position_twenty_moves : (generate_moves startPosition).length = 20 := by
  decide

/-- C4: from a searching session whose cancellation flag has been raised by
a stop command, any schedule that contains at least one worker poll and no
further start-search or quit emits exactly one bestmove — and already the
prefix up to any poll has emitted it (bounded time), never zero and never
two. -/
theorem c4_stop_single_bestmove (pos : Position) (f : Nat) (i : Bool) (b : Move)
    (evs : List Ev)
    (hcmd : ∀ l, Ev.input l ∈ evs → isStart l = false ∧ isQuit l = false)
    (htick : Ev.tick ∈ evs) :
    countBM (runS ⟨pos, .searching f true i b, false⟩ evs).2 = 1 ∧
    ∀ k, Ev.tick ∈ evs.take k →
      countBM (runS ⟨pos, .searching f true i b, false⟩ (evs.take k)).2 = 1 := by
  constructor
  · rw [runS_cancel_count pos f i b evs hcmd, if_pos htick]
  · intro k hk
    rw [runS_cancel_count pos f i b _ fun l hl => hcmd l (List.mem_of_mem_take hl),
      if_pos hk]

theorem c4_stop_single_bestmove_witness :
    ((∀ l, Ev.input l ∈ [Ev.tick] → isStart l = false ∧ isQuit l = false) ∧
      Ev.tick ∈ [Ev.tick]) ∧
    (countBM (runS ⟨startPosition, .searching 5 true false NULL_MOVE, false⟩ [Ev.tick]).2 = 1 ∧
      ∀ k, Ev.tick ∈ ([Ev.tick] : List Ev).take k →
        countBM (runS ⟨startPosition, .searching 5 true false NULL_MOVE, false⟩
          (([Ev.tick] : List Ev).take k)).2 = 1) :=
  ⟨⟨fun l hl => by simp at hl, by decide⟩,
   c4_stop_single_bestmove startPosition 5 false NULL_MOVE [Ev.tick]
     (fun l hl => by simp at hl) (by decide)⟩

/-- C5: whenever some legal move delivers immediate checkmate, `search`
with max_depth ≥ 1 returns a move that delivers checkmate. -/
theorem c5_mate_in_one_found (P : Position) (params : SearchParams)
    (h1 : 1 ≤ params.max_depth)
    (h2 : ∃ m, m ∈ generate_moves P ∧ deliversMate P m) :
    deliversMate P (search P params) := by
  obtain ⟨m0, hm0, hmate⟩ := h2
  rcases hg : generate_moves P with _ | ⟨mv, rest⟩
  · rw [hg] at hm0
    simp at hm0
  · rw [search_eq_bestAtDepth hg h1]
    unfold bestAtDepth
    simp only [hg]
    have hinit : MATE - 1 ≤
        (mv, rootScore params.config P (params.max_depth - 1) (-(MATE + 1)) mv).2 →
        deliversMate P
          (mv, rootScore params.config P (params.max_depth - 1) (-(MATE + 1)) mv).1 := by
      dsimp only
      intro hge
      by_cases hdm : deliversMate P mv
      · exact hdm
      · exact absurd hge (not_le.mpr (rootScore_lt _ _ hdm _))
    refine foldl_rootStep_carrier params.config P (params.max_depth - 1) rest _ hinit ?_
    rw [hg] at hm0
    rcases List.mem_cons.mp hm0 with he | he
    · subst he
      refine le_trans ?_ (foldl_rootStep_sc_mono ..)
      dsimp only
      rw [rootScore_mate params.config _ hmate]
    · exact foldl_rootStep_mate params.config P _ hmate rest _ he

theorem c5_mate_in_one_found_witness :
    (1 ≤ (⟨2, SearchConfig.FULL⟩ : SearchParams).max_depth ∧
      ∃ m, m ∈ generate_moves mateDemo ∧ deliversMate mateDemo m) ∧
    deliversMate mateDemo (search mateDemo ⟨2, SearchConfig.FULL⟩) :=
  ⟨⟨by decide, ⟨mkMove (sq 0) (sq 56) 0, by decide, by decide, by decide⟩⟩,
   c5_mate_in_one_found mateDemo ⟨2, SearchConfig.FULL⟩ (by decide)
     ⟨mkMove (sq 0) (sq 56) 0, by decide, by decide, by decide⟩⟩

/-- C6: the null-move sentinel collides with no real encodable move — any
packed move whose origin and destination differ is distinct from it. -/
theorem c6_null_move_distinct (f t : Square) (fl : Nat) (h : f ≠ t) :
    mkMove f t fl ≠ NULL_MOVE := by
  intro he
  have he2 : f.val + 64 * t.val + 4096 * fl = 0 := he
  have hf := f.isLt
  have ht := t.isLt
  exact h (Fin.ext (by omega))

theorem c6_null_move_distinct_witness :
    sq 12 ≠ sq 28 ∧ mkMove (sq 12) (sq 28) 1 ≠ NULL_MOVE :=
  ⟨by decide, c6_null_move_distinct _ _ 1 (by decide)⟩

/-- C7: a line that is unrecognized or has malformed arguments is answered
with a distinguishable error line, the session state (including the current
Position) is unchanged, and the total step function keeps processing. -/
theorem c7_malformed_command_safe (st : EngineState) (line : String)
    (hq : st.quitted = false) (hw : wellFormed line = false) :
    (handle_command st line).1 = st ∧
      (handle_command st line).2 = [Output.err errText] := by
  have hc : parseCommand line = .invalid := by
    unfold wellFormed at hw
    cases hc : parseCommand line <;> rw [hc] at hw <;> first | rfl | simp at hw
  unfold handle_command
  rw [if_neg (by simp [hq]), hc]
  exact ⟨rfl, rfl⟩

theorem c7_malformed_command_safe_witness :
    ((⟨startPosition, SessionMode.idle, false⟩ : EngineState).quitted = false ∧
      wellFormed badLine = false) ∧
    ((handle_command ⟨startPosition, SessionMode.idle, false⟩ badLine).1 =
        ⟨startPosition, SessionMode.idle, false⟩ ∧
      (handle_command ⟨startPosition, SessionMode.idle, false⟩ badLine).2 =
        [Output.err errText]) :=
  ⟨⟨rfl, by decide⟩, c7_malformed_command_safe _ _ rfl (by decide)⟩

/-- C8: move generation is deterministic in content — any two lists obtained
by invoking `generate_moves` on the same Position contain exactly the same
moves. -/
theorem c8_generation_deterministic (P : Position) (l1 l2 : List Move)
    (h1 : l1 = generate_moves P) (h2 : l2 = generate_moves P) :
    ∀ m, m ∈ l1 ↔ m ∈ l2 := by
  subst h1
  subst h2
  intro m
  exact Iff.rfl

theorem c8_generation_deterministic_witness :
    (generate_moves startPosition = generate_moves startPosition ∧
      generate_moves startPosition = generate_moves startPosition) ∧
    ∀ m, m ∈ generate_moves startPosition ↔ m ∈ generate_moves startPosition :=
  ⟨⟨rfl, rfl⟩, c8_generation_deterministic startPosition _ _ rfl rfl⟩

/-- C9: with a finite max_depth ≥ 1 the search terminates with a value, and
the iterative-deepening recursion performs a bounded amount of work — its
full-width node count is bounded by a closed-form function of the depth. -/
theorem c9_search_terminates_bounded (P : Position) (params : SearchParams)
    (h : 1 ≤ params.max_depth) :
    (∃ r, search P params = r) ∧
      searchNodes P params ≤ searchNodeBound params.max_depth :=
  ⟨⟨search P params, rfl⟩, searchNodes_le P params⟩

theorem c9_search_terminates_bounded_witness :
    1 ≤ (⟨3, SearchConfig.FULL⟩ : SearchParams).max_depth ∧
    ((∃ r, search startPosition ⟨3, SearchConfig.FULL⟩ = r) ∧
      searchNodes startPosition ⟨3, SearchConfig.FULL⟩ ≤ searchNodeBound 3) :=
  ⟨by decide, c9_search_terminates_bounded startPosition ⟨3, SearchConfig.FULL⟩ (by decide)⟩

/-- C10: the make/unmake implementation of the search returns the Position
it was handed unchanged, and its chosen move is the one the functional
search specification computes. -/
theorem c10_search_no_mutation (P : Position) (params : SearchParams) :
    (searchSt P params).2 = P ∧ (searchSt P params).1 = search P params := by
  rw [searchSt_spec]
  exact ⟨rfl, rfl⟩

end ChessAI

